import Mathlib

/-!
# nvme2map_write: a shallow embedding of `src/speed/nvme2map_write.c`

The benchmark maps a source buffer, starts `threads` workers that each run
`save_thread`, and reports the bytes the workers accumulated in `st.bytes`.

Conventions of the embedding.

* `unsigned` values are naturals reduced modulo `2 ^ 32`, `size_t` values are
  naturals reduced modulo `2 ^ 64`, `int` / `ssize_t` values are integers.
* Bytes are naturals; a buffer is a `List Nat`.
* System calls (`open`, `fallocate`, `write`, `mmap`, `malloc`, ...) are not
  part of the program.  What each call returns is supplied by an environment
  record; what a call does to a file follows POSIX `write(2)` on a descriptor
  opened without `O_APPEND`: the bytes land at the descriptor's file offset
  and the offset advances by the number of bytes transferred.
* A `sprintf` whose output and terminating NUL do not fit the destination
  array (`fn[PATH_MAX]`, `cmd[MAX_INPUT]`) writes past it; the run stops there
  with `Stop.overrun` and nothing is claimed about what follows.
-/

namespace Nvme2MapWrite

/-! ## Machine integers -/

/-- Modulus of `unsigned int`. -/
def UINT_MOD : Nat := 2 ^ 32

/-- Modulus of `size_t` (and of `pthread_t`, an `unsigned long`). -/
def SIZE_MOD : Nat := 2 ^ 64

/-- The constant `PATH_MAX` of `<limits.h>`: the size of the buffer `fn`. -/
def PATH_MAX : Nat := 4096

/-- The constant `MAX_INPUT` of `<limits.h>`: the size of the buffer `cmd`. -/
def MAX_INPUT : Nat := 255

/-- Conversion of an `unsigned int` value to `int` (two's complement, as gcc does). -/
def unsigned_to_int (u : Nat) : Int :=
  if u % UINT_MOD < 2 ^ 31 then ((u % UINT_MOD : Nat) : Int)
  else ((u % UINT_MOD : Nat) : Int) - 2 ^ 32

/-! ## Files and `write(2)` -/

/-- An output file seen through the one descriptor `save_thread` holds on it:
its contents and the descriptor's file offset. -/
structure File where
  data : List Nat
  pos : Nat
deriving DecidableEq

/-- The file right after `open(fn, O_CREAT | O_WRONLY | O_TRUNC, 0666)`. -/
def File.fresh : File := { data := [], pos := 0 }

/-- Store `chunk` into `data` at offset `pos`; a gap past the end reads as zeros. -/
def store_at (data : List Nat) (pos : Nat) (chunk : List Nat) : List Nat :=
  data.take pos ++ List.replicate (pos - data.length) 0 ++ chunk
    ++ data.drop (pos + chunk.length)

/-- Effect of `write(fd, buf, count)` when the call returns `ret`: a negative
`ret` leaves the file alone, otherwise the first `ret` bytes of the request are
stored at the file offset, which advances by `ret`. -/
def sys_write (f : File) (buf : List Nat) (count : Nat) (ret : Int) : File :=
  if ret < 0 then f
  else
    let chunk := (buf.take count).take ret.toNat
    { data := store_at f.data f.pos chunk, pos := f.pos + chunk.length }

/-- One `write` call as the program issued it. -/
structure WriteCall where
  buf : List Nat
  count : Nat
  ret : Int
deriving DecidableEq

/-! ## `write_zeros` -/

/-- The local `const unsigned char buf[4096] = {0}` of `write_zeros`. -/
def zero_buf : List Nat := List.replicate 4096 0

/-- The loop of `write_zeros(fd, length)`.  `wr call towrite` is what the
`call`-th `write` returns when asked for `towrite` bytes.  The result is the
return value, the file afterwards and the `write` calls issued; `none` means
the fuel ran out with the loop still running. -/
def write_zeros (wr : Nat → Nat → Int) :
    Nat → Nat → File → Nat → Option (Int × File × List WriteCall)
  | 0, _, _, _ => none
  | fuel + 1, call, f, length =>
    if length = 0 then some (0, f, [])
    else
      let towrite := if length > 4096 then 4096 else length
      let ret := wr call towrite
      if ret < 0 then some (-1, f, [⟨zero_buf, towrite, ret⟩])
      else
        match write_zeros wr fuel (call + 1) (sys_write f zero_buf towrite ret)
            ((((length : Int) - ret) % (SIZE_MOD : Int)).toNat) with
        | none => none
        | some (r, f', calls) => some (r, f', ⟨zero_buf, towrite, ret⟩ :: calls)

/-- Every request in a log asks for `min remaining 4096` bytes taken from the
zero buffer, where `remaining` starts at `rem` and drops by what was transferred. -/
def requests_ok : Nat → List WriteCall → Prop
  | _, [] => True
  | rem, c :: rest =>
    c.count = min rem 4096 ∧ c.buf = zero_buf ∧ requests_ok (rem - c.ret.toNat) rest

/-- Total number of bytes the calls of a log transferred. -/
def transferred (calls : List WriteCall) : Int := (calls.map (fun c => c.ret)).sum

/-! ## File names: `sprintf(fn, "%s/%u-%05d.dat", st->output_dir, tid, i)` -/

/-- The character of one decimal digit. -/
def digit_char (d : Nat) : Char := Char.ofNat (48 + d)

/-- Decimal digits of `n`, most significant first, put in front of `acc`. -/
def fmt_digits : Nat → Nat → List Char → List Char
  | 0, _, acc => acc
  | fuel + 1, n, acc =>
    if n < 10 then digit_char n :: acc
    else fmt_digits fuel (n / 10) (digit_char (n % 10) :: acc)

/-- The conversion `%u`. -/
def fmt_u (n : Nat) : List Char := fmt_digits (n + 1) n []

/-- The conversion `%05d` at a non-negative argument (the loop index `i` of
`save_thread` starts at 0 and only grows): zero-padded to at least 5 digits. -/
def fmt_05d (i : Nat) : List Char :=
  List.replicate (5 - (fmt_u i).length) '0' ++ fmt_u i

/-- The local `unsigned int tid = pthread_self();`: the 64-bit `pthread_t`
converted to `unsigned int`. -/
def tid_of (pthread_self : Nat) : Nat := pthread_self % UINT_MOD

/-- The path `save_thread` formats into `fn`. -/
def sprintf_fn (output_dir : String) (tid : Nat) (i : Nat) : String :=
  String.mk (output_dir.data ++ '/' :: fmt_u tid ++ '-' :: fmt_05d i ++ ".dat".data)

/-! ## `save_thread` -/

/-- The fields of `struct savethrd` that `save_thread` uses.  `buf` holds the
bytes of the mapping `st->buf` points to. -/
structure savethrd where
  no_direct_dma : Int
  write_count : Int
  output_dir : String
  bytes : Nat
  buf : List Nat
  bufsize : Nat

/-- What the system hands to one worker thread: its `pthread_self()` value and
the outcome of each call it makes, indexed by the loop iteration. -/
structure ThreadEnv where
  pthread_self : Nat
  /-- Whether `malloc(st->bufsize)` returns a non-null pointer. -/
  malloc_ok : Bool
  /-- Initial contents of the malloc'ed region. -/
  malloc_garbage : Nat → Nat
  /-- Return value of `open` in iteration `i`. -/
  open_ret : Nat → Int
  /-- Return value of `fallocate` in iteration `i`. -/
  fallocate_ret : Nat → Int
  /-- Stale contents of the blocks `fallocate` assigns (`FALLOC_FL_NO_HIDE_STALE`). -/
  stale : Nat → Nat → Nat
  /-- Return value of the `call`-th `write` of `write_zeros` in iteration `i`. -/
  zero_write_ret : Nat → Nat → Nat → Int
  /-- Return value of the payload `write` in iteration `i`. -/
  write_ret : Nat → Int
  /-- Return value of `nvme_dev_write_fd` in iteration `i` and the file it leaves. -/
  nvme_dev_write_fd : Nat → File → List Nat → Nat → Int × File

/-- Why a run does not return. -/
inductive Stop where
  | out_of_fuel
  | segv
  /-- A `sprintf` wrote past the end of its destination buffer. -/
  | overrun
deriving DecidableEq

/-- The calls a worker makes, in program order. -/
inductive Event where
  | malloc_tmpbuf (size : Nat)
  | open_file (i : Nat) (fn : String) (ret : Int)
  | open_error (i : Nat)
  | fallocate (i : Nat) (len : Nat) (ret : Int)
  | perror_fallocate (i : Nat)
  | zero_write (i : Nat) (c : WriteCall)
  | memcpy (i : Nat) (n : Nat)
  | write (i : Nat) (c : WriteCall)
  | fsync (i : Nat)
  | nvme_write (i : Nat) (len : Nat) (ret : Int)
  | close (i : Nat)
  | free_tmpbuf
  | sync_add (bytes : Nat)
  | worker_finish_thread
deriving DecidableEq

/-- Effect of a successful `fallocate(fd, FALLOC_FL_NO_HIDE_STALE, 0, len)`: the
file grows to `len` bytes if it was shorter, the new bytes are whatever the
assigned blocks held; the file offset does not move. -/
def sys_fallocate (f : File) (len : Nat) (stale : Nat → Nat) : File :=
  { f with data := f.data ++ (List.range' f.data.length (len - f.data.length)).map stale }

/-- `memcpy(tmpbuf, st->buf, st->bufsize)`. -/
def memcpy (dst src : List Nat) (n : Nat) : List Nat := src.take n ++ dst.drop n

/-- One loop iteration of `save_thread` after `open` succeeded: preallocation
(or the zero fill), the payload write, `close`.  Returns the file as it is at
`close`, the scratch buffer, and the calls made. -/
def save_iter (fuel : Nat) (st : savethrd) (env : ThreadEnv) (tmpbuf : Option (List Nat))
    (i : Nat) : Except Stop (File × Option (List Nat) × List Event) :=
  let f0 := File.fresh
  let r1 : Except Stop (File × List Event) :=
    if env.fallocate_ret i ≠ 0 then
      match write_zeros (env.zero_write_ret i) fuel 0 f0 st.bufsize with
      | none => .error Stop.out_of_fuel
      | some (_, f, calls) =>
        .ok (f, Event.fallocate i st.bufsize (env.fallocate_ret i) :: Event.perror_fallocate i
              :: calls.map (Event.zero_write i))
    else .ok (sys_fallocate f0 st.bufsize (env.stale i), [Event.fallocate i st.bufsize 0])
  match r1 with
  | .error e => .error e
  | .ok (f1, ev1) =>
    if st.no_direct_dma ≠ 0 then
      match tmpbuf with
      | none =>
        if st.bufsize = 0 then
          let c : WriteCall := ⟨[], 0, env.write_ret i⟩
          .ok (sys_write f1 [] 0 (env.write_ret i), none,
            ev1 ++ [Event.memcpy i 0, Event.write i c, Event.fsync i, Event.close i])
        else .error Stop.segv
      | some t =>
        let t' := memcpy t st.buf st.bufsize
        let c : WriteCall := ⟨t', st.bufsize, env.write_ret i⟩
        .ok (sys_write f1 t' st.bufsize (env.write_ret i), some t',
          ev1 ++ [Event.memcpy i st.bufsize, Event.write i c, Event.fsync i, Event.close i])
    else
      let r := env.nvme_dev_write_fd i f1 st.buf st.bufsize
      .ok (r.2, tmpbuf, ev1 ++ [Event.nvme_write i st.bufsize r.1, Event.close i])

/-- What the loop of a worker leaves behind. -/
structure LoopResult where
  /-- The local `size_t bytes`. -/
  bytes : Nat
  /-- The files closed, with their paths, in the order of creation. -/
  files : List (String × File)
  trace : List Event
deriving DecidableEq

/-- The loop `for (int i = 0; i < st->write_count; i++)` from index `i` on,
with `todo` iterations left before `i` reaches `st->write_count`.  The path is
formatted into `char fn[PATH_MAX]`: when its bytes and the terminating NUL do
not fit, `sprintf` writes past the buffer and the run stops there. -/
def save_loop (fuel : Nat) (st : savethrd) (env : ThreadEnv) :
    Nat → Nat → Option (List Nat) → Nat → Except Stop LoopResult
  | 0, _, _, bytes => .ok { bytes := bytes, files := [], trace := [] }
  | todo + 1, i, tmpbuf, bytes =>
    let fn := sprintf_fn st.output_dir (tid_of env.pthread_self) i
    if PATH_MAX < fn.utf8ByteSize + 1 then .error Stop.overrun
    else
      let fd := env.open_ret i
      if fd < 0 then
        .ok { bytes := bytes, files := [],
              trace := [Event.open_file i fn fd, Event.open_error i] }
      else
        match save_iter fuel st env tmpbuf i with
        | .error e => .error e
        | .ok (f, tmpbuf', evs) =>
          match save_loop fuel st env todo (i + 1) tmpbuf' ((bytes + st.bufsize) % SIZE_MOD) with
          | .error e => .error e
          | .ok r =>
            .ok { bytes := r.bytes, files := (fn, f) :: r.files,
                  trace := Event.open_file i fn fd :: evs ++ r.trace }

/-- The body of `save_thread`: the value it adds to `st->bytes` with
`__sync_add_and_fetch` is the `bytes` field of the result.  `fuel` bounds the
number of rounds each `write_zeros` loop may take. -/
def save_thread (fuel : Nat) (st : savethrd) (env : ThreadEnv) : Except Stop LoopResult :=
  let tmpbuf : Option (List Nat) :=
    if env.malloc_ok then some ((List.range st.bufsize).map env.malloc_garbage) else none
  match save_loop fuel st env st.write_count.toNat 0 tmpbuf 0 with
  | .error e => .error e
  | .ok r =>
    .ok { bytes := r.bytes, files := r.files,
          trace := Event.malloc_tmpbuf st.bufsize :: r.trace
            ++ [Event.free_tmpbuf, Event.sync_add r.bytes, Event.worker_finish_thread] }

/-- The loop iteration an event belongs to, if any. -/
def Event.iter : Event → Option Nat
  | .open_file i _ _ => some i
  | .open_error i => some i
  | .fallocate i _ _ => some i
  | .perror_fallocate i => some i
  | .zero_write i _ => some i
  | .memcpy i _ => some i
  | .write i _ => some i
  | .fsync i => some i
  | .nvme_write i _ _ => some i
  | .close i => some i
  | _ => none

/-- Whether the event is a preallocation or a write on an output file. -/
def Event.touches_file : Event → Bool
  | .fallocate _ _ _ => true
  | .zero_write _ _ => true
  | .write _ _ => true
  | .nvme_write _ _ _ => true
  | _ => false

/-- The iteration indices of the `open` calls of a trace, in order. -/
def opens (tr : List Event) : List Nat :=
  tr.filterMap fun e => match e with
    | .open_file i _ _ => some i
    | _ => none

/-- The values added to `st->bytes` in a trace, in order. -/
def adds (tr : List Event) : List Nat :=
  tr.filterMap fun e => match e with
    | .sync_add b => some b
    | _ => none

/-- Number of payload writes (`write` or `nvme_dev_write_fd`) in a trace. -/
def payload_calls (tr : List Event) : Nat :=
  tr.countP fun e => match e with
    | .write _ _ => true
    | .nvme_write _ _ _ => true
    | _ => false

/-- Bytes the buffered payload writes of a trace really transferred: the
return value of each `write` when it is not an error. -/
def payload_written (tr : List Event) : Int :=
  (tr.map fun e => match e with
    | .write _ c => max c.ret 0
    | _ => 0).sum

/-- The environment lets a worker run to its end: the scratch buffer is there
when the buffered path copies into it, no zero-fill `write` returns 0 or more
than it was asked for, and every iteration the loop reaches (all earlier opens
succeeded) formats a path that fits `fn[PATH_MAX]` with its terminating NUL. -/
def ThreadEnv.returns (env : ThreadEnv) (st : savethrd) : Prop :=
  (st.no_direct_dma ≠ 0 → st.bufsize ≠ 0 → env.malloc_ok = true)
  ∧ (∀ i c req, 1 ≤ req →
      env.zero_write_ret i c req ≠ 0 ∧ env.zero_write_ret i c req ≤ (req : Int))
  ∧ ∀ i, i < st.write_count.toNat → (∀ j, j < i → 0 ≤ env.open_ret j) →
      (sprintf_fn st.output_dir (tid_of env.pthread_self) i).utf8ByteSize + 1 ≤ PATH_MAX

/-! ## The worker pool -/

/-- What the pool leaves behind: the shared counter `st.bytes` and what each
worker did. -/
structure PoolResult where
  bytes : Nat
  workers : List LoopResult
deriving DecidableEq

/-- Modelled from the spec: `worker_start` and `worker_join` of
`libdonard/worker.h`, whose code is not part of these sources.  Section 4.3: the pool runs
`thread_count` threads, each running the given function (`save_thread`) on the
shared state; every worker adds its total to the shared counter with one atomic
addition, and `join` returns once all workers have finished.  Each entry of
`envs` is the environment of one thread; the additions are applied in list
order, starting from the value `bytes` of the counter. -/
def worker_pool_from (fuel : Nat) (st : savethrd) : Nat → List ThreadEnv → Except Stop PoolResult
  | bytes, [] => .ok { bytes := bytes, workers := [] }
  | bytes, env :: envs =>
    match save_thread fuel st env with
    | .error e => .error e
    | .ok r =>
      match worker_pool_from fuel st ((bytes + r.bytes) % SIZE_MOD) envs with
      | .error e => .error e
      | .ok p => .ok { bytes := p.bytes, workers := r :: p.workers }

/-- The pool started on `st`: the counter starts at `st.bytes`. -/
def worker_pool (fuel : Nat) (st : savethrd) (envs : List ThreadEnv) : Except Stop PoolResult :=
  worker_pool_from fuel st st.bytes envs

/-! ## `main` -/

/-- The `struct config`. -/
structure config where
  write_count : Nat
  threads : Nat
  buf_size_mb : Nat
  bufsize : Nat
  output_dir : String
  no_direct_dma : Int
  show_version : Int
  mmap_file : String
  mmap_offset : Nat

/-- The `struct mmap_buf`. -/
structure mmap_buf where
  fd : Int
  buf : Nat
  len : Nat
deriving DecidableEq

/-- What the system hands to `main`. -/
structure MainEnv where
  /-- Whether `malloc(sizeof(*mbuf))` returns a non-null pointer. -/
  malloc_ok : Bool
  /-- Return value of `open(cfg->mmap_file, O_RDWR)`. -/
  open_ret : Int
  /-- Address `mmap` returns, `none` for `MAP_FAILED`. -/
  mmap_ret : Option Nat
  /-- Contents of the mapping. -/
  mapped : List Nat
  /-- Return value of `worker_start`. -/
  worker_start_ret : Int
  /-- The environment of the `k`-th worker thread. -/
  thread : Nat → ThreadEnv

/-- The calls `main` makes, in program order. -/
inductive MainEvent where
  | printf_version
  | umask
  | system (cmd : String)
  | malloc_mbuf (ok : Bool)
  | open_src (ret : Int)
  | mmap_src (fd : Int) (len : Nat) (offset : Nat) (ret : Option Nat)
  | close_fd (fd : Int)
  | munmap (addr : Nat) (len : Nat)
  | free_mbuf
  | fprintf_unable_to_mmap
  | perfstats_init
  | gettimeofday
  | perfstats_enable
  | worker_start (threads : Nat) (ret : Int)
  | perror_threads
  | worker_join
  | perfstats_disable
  | print_cpu_time
  | perfstats_print
  | report_transfer_rate (bytes : Nat)
  | perfstats_deinit
deriving DecidableEq

/-- The command `delete_output_dir_files` formats into `char cmd[MAX_INPUT]`
with `sprintf(cmd, "rm -rf %s/*.dat", dir)`. -/
def sprintf_cmd (dir : String) : String :=
  String.mk ("rm -rf ".data ++ dir.data ++ "/*.dat".data)

/-- The function `delete_output_dir_files`: when the command and its
terminating NUL do not fit `cmd`, `sprintf` writes past the buffer and the run
stops there; otherwise the command is handed to `system`. -/
def delete_output_dir_files (dir : String) : Except Stop (List MainEvent) :=
  if MAX_INPUT < (sprintf_cmd dir).utf8ByteSize + 1 then .error Stop.overrun
  else .ok [.system (sprintf_cmd dir)]

/-- The `savethrd` that `main` fills before it starts the pool: `bytes = 0`,
`write_count` the `unsigned` count converted to `int`, `buf` the mapping. -/
def main_st (cfg : config) (env : MainEnv) : savethrd :=
  { bytes := 0
    no_direct_dma := cfg.no_direct_dma
    write_count := unsigned_to_int cfg.write_count
    output_dir := cfg.output_dir
    buf := env.mapped
    bufsize := cfg.bufsize }

/-- The statement `cfg.bufsize = cfg.buf_size_mb * 1024 * 1024;` in
`unsigned int` arithmetic. -/
def main_bufsize (buf_size_mb : Nat) : Nat :=
  ((buf_size_mb % UINT_MOD * 1024) % UINT_MOD * 1024) % UINT_MOD

/-- The function `open_mmap_buf`. -/
def open_mmap_buf (cfg : config) (env : MainEnv) : Option mmap_buf × List MainEvent :=
  if env.malloc_ok = false then (none, [.malloc_mbuf false])
  else
    let len := cfg.bufsize
    let fd := env.open_ret
    if fd < 0 then (none, [.malloc_mbuf true, .open_src fd, .free_mbuf])
    else
      match env.mmap_ret with
      | some addr =>
        (some { fd := fd, buf := addr, len := len },
          [.malloc_mbuf true, .open_src fd, .mmap_src fd len cfg.mmap_offset (some addr)])
      | none =>
        (none, [.malloc_mbuf true, .open_src fd, .mmap_src fd len cfg.mmap_offset none,
          .close_fd fd, .free_mbuf])

/-- The function `close_mmap_buf`. -/
def close_mmap_buf (mbuf : mmap_buf) : List MainEvent :=
  [.munmap mbuf.buf mbuf.len, .close_fd mbuf.fd, .free_mbuf]

/-- What `main` leaves behind. -/
structure MainResult where
  ret : Int
  trace : List MainEvent
  /-- The pool's result when the workers ran. -/
  pool : Option PoolResult
deriving DecidableEq

/-- The function `main`, after `argconfig_parse` has filled `cfg`. -/
def main (fuel : Nat) (cfg0 : config) (env : MainEnv) : Except Stop MainResult :=
  if cfg0.show_version ≠ 0 then .ok { ret := 0, trace := [.printf_version], pool := none }
  else
    match delete_output_dir_files cfg0.output_dir with
    | .error e => .error e
    | .ok del =>
      let cfg : config := { cfg0 with bufsize := main_bufsize cfg0.buf_size_mb }
      let pre : List MainEvent := .umask :: del
      match open_mmap_buf cfg env with
      | (none, evs) =>
        .ok { ret := -1, trace := pre ++ evs ++ [.fprintf_unable_to_mmap], pool := none }
      | (some mbuf, evs) =>
        let st : savethrd := main_st cfg env
        let setup : List MainEvent :=
          pre ++ evs ++ [.perfstats_init, .gettimeofday, .perfstats_enable,
            .worker_start cfg.threads env.worker_start_ret]
        if env.worker_start_ret ≠ 0 then
          .ok { ret := -1
                trace := setup ++ [.perror_threads, .perfstats_deinit] ++ close_mmap_buf mbuf
                pool := none }
        else
          match worker_pool fuel st ((List.range cfg.threads).map env.thread) with
          | .error e => .error e
          | .ok p =>
            .ok { ret := 0
                  trace := setup ++ [.worker_join, .perfstats_disable, .gettimeofday,
                    .print_cpu_time, .perfstats_print, .report_transfer_rate p.bytes,
                    .perfstats_deinit] ++ close_mmap_buf mbuf
                  pool := some p }

/-- The descriptors `main` acquired for the source mapping. -/
def opened (tr : List MainEvent) : List Int :=
  tr.filterMap fun e => match e with
    | .open_src ret => if 0 ≤ ret then some ret else none
    | _ => none

/-- The descriptors `main` closed. -/
def closed (tr : List MainEvent) : List Int :=
  tr.filterMap fun e => match e with
    | .close_fd fd => some fd
    | _ => none

/-- The mappings `main` established, as address and length. -/
def mapped (tr : List MainEvent) : List (Nat × Nat) :=
  tr.filterMap fun e => match e with
    | .mmap_src _ len _ (some addr) => some (addr, len)
    | _ => none

/-- The mappings `main` removed, as address and length. -/
def unmapped (tr : List MainEvent) : List (Nat × Nat) :=
  tr.filterMap fun e => match e with
    | .munmap addr len => some (addr, len)
    | _ => none

/-- The byte counts `main` passes to `report_transfer_rate`. -/
def reported (tr : List MainEvent) : List Nat :=
  tr.filterMap fun e => match e with
    | .report_transfer_rate bytes => some bytes
    | _ => none

/-- Value of a decimal digit character. -/
def char_val (c : Char) : Nat := c.toNat - 48

/-- Value of a string of decimal digits (leading zeros allowed). -/
def decode (cs : List Char) : Nat := cs.foldl (fun v c => 10 * v + char_val c) 0

/-! ## Concrete runs -/

/-- The `savethrd` of a buffered run (`-D`) with `n` writes per thread of `b`
bytes, over a source mapping that holds the bytes 0, 1, 2, ... (modulo 256). -/
def example_st (n b : Nat) : savethrd :=
  { no_direct_dma := 1
    write_count := n
    output_dir := "/mnt/princeton/speed_write_test"
    bytes := 0
    buf := (List.range b).map (fun j => j % 256)
    bufsize := b }

/-- A thread whose `malloc` succeeds and whose zero-fill writes transfer in
full, with the given results of `open`, `fallocate` and the payload `write`. -/
def example_env (pthread_self : Nat) (open_ret fallocate_ret write_ret : Nat → Int) :
    ThreadEnv :=
  { pthread_self := pthread_self
    malloc_ok := true
    malloc_garbage := fun _ => 170
    open_ret := open_ret
    fallocate_ret := fallocate_ret
    stale := fun _ _ => 85
    zero_write_ret := fun _ _ req => req
    write_ret := write_ret
    nvme_dev_write_fd := fun _ f _ _ => (0, f) }

/-- A configuration as `argconfig_parse` leaves it for `-D -c 2 -t 2 -b 1`. -/
def example_cfg : config :=
  { write_count := 2
    threads := 2
    buf_size_mb := 1
    bufsize := 0
    output_dir := "/mnt/princeton/speed_write_test"
    no_direct_dma := 1
    show_version := 0
    mmap_file := "/dev/mtramon1"
    mmap_offset := 0 }

/-- The configuration for `-D -c 2147483648 -t 1 -b 1`. -/
def example_cfg_large_count : config :=
  { write_count := 2147483648
    threads := 1
    buf_size_mb := 1
    bufsize := 0
    output_dir := "/mnt/princeton/speed_write_test"
    no_direct_dma := 1
    show_version := 0
    mmap_file := "/dev/mtramon1"
    mmap_offset := 0 }

/-- A system in which every call of `main` and of its workers succeeds. -/
def example_main_env : MainEnv :=
  { malloc_ok := true
    open_ret := 3
    mmap_ret := some 140737351876608
    mapped := List.replicate 1048576 0
    worker_start_ret := 0
    thread := fun k =>
      example_env (139888636716800 + 8388608 * k) (fun _ => 4) (fun _ => 0) (fun _ => 1048576) }

/-- Two workers; the only failing `open` is the one of worker 0 in iteration 1. -/
def example_envs_one_failure : List ThreadEnv :=
  [example_env 139888636716800 (fun i => if i = 1 then -1 else 3) (fun _ => 0) (fun _ => 4096),
   example_env 139888628324096 (fun _ => 4) (fun _ => 0) (fun _ => 4096)]

/-! ## Properties of `write_zeros` -/

theorem store_at_end (m : Nat) (chunk : List Nat) :
    store_at (List.replicate m 0) m chunk = List.replicate m 0 ++ chunk := by
  simp [store_at]

theorem write_zeros_progress (wr : Nat → Nat → Int)
    (h : ∀ c req, 1 ≤ req → 1 ≤ wr c req ∧ wr c req ≤ (req : Int)) :
    ∀ fuel call f length, length < fuel → length < SIZE_MOD →
      ∃ f' calls, write_zeros wr fuel call f length = some (0, f', calls)
        ∧ requests_ok length calls ∧ transferred calls = (length : Int)
        ∧ (∀ c ∈ calls, 1 ≤ c.ret ∧ c.ret ≤ (c.count : Int))
        ∧ f'.pos = f.pos + length
        ∧ (∀ m, f.data = List.replicate m 0 → f.pos = m →
            f'.data = List.replicate (m + length) 0) := by
  intro fuel
  induction fuel with
  | zero => intro call f length hlt; omega
  | succ fuel ih =>
    intro call f length hlt hsz
    by_cases h0 : length = 0
    · subst h0
      exact ⟨f, [], by simp [write_zeros], trivial, by simp [transferred], by simp, by simp,
        by intro m hd _; simpa using hd⟩
    · have htw : 1 ≤ (if length > 4096 then 4096 else length) := by split <;> omega
      have htl : (if length > 4096 then 4096 else length) ≤ length := by split <;> omega
      obtain ⟨hlo, hhi⟩ := h call _ htw
      obtain ⟨r, hr⟩ := Int.eq_ofNat_of_zero_le (le_trans (by norm_num) hlo)
      have hr1 : 1 ≤ r := by rw [hr] at hlo; exact_mod_cast hlo
      have hr2 : r ≤ (if length > 4096 then 4096 else length) := by
        rw [hr] at hhi; exact_mod_cast hhi
      have hlen : ((((length : Int) - wr call (if length > 4096 then 4096 else length))
          % (SIZE_MOD : Int)).toNat) = length - r := by
        rw [hr]
        have : ((length : Int) - (r : Int)) = ((length - r : Nat) : Int) := by omega
        rw [this, ← Int.natCast_mod, Int.toNat_natCast]
        exact Nat.mod_eq_of_lt (by omega)
      obtain ⟨f', calls, hrun, hreq, htr, hall, hpos, hdata⟩ :=
        ih (call + 1) (sys_write f zero_buf (if length > 4096 then 4096 else length)
          (wr call (if length > 4096 then 4096 else length))) (length - r) (by omega) (by omega)
      have hchunk : ((zero_buf.take (if length > 4096 then 4096 else length)).take r)
          = List.replicate r 0 := by
        have h4 : (if length > 4096 then 4096 else length) ≤ 4096 := by split <;> omega
        unfold zero_buf
        rw [List.take_replicate, List.take_replicate]
        congr 1
        omega
      have hsw : sys_write f zero_buf (if length > 4096 then 4096 else length)
          (wr call (if length > 4096 then 4096 else length))
          = { data := store_at f.data f.pos (List.replicate r 0), pos := f.pos + r } := by
        unfold sys_write
        rw [if_neg (by omega)]
        simp only [hr, Int.toNat_natCast, hchunk, List.length_replicate]
      refine ⟨f', ⟨zero_buf, (if length > 4096 then 4096 else length), wr call (if length > 4096 then 4096 else length)⟩ :: calls,
        ?_, ?_, ?_, ?_, ?_, ?_⟩
      · rw [write_zeros, if_neg h0]
        simp only []
        rw [if_neg (by omega), hlen, hrun]
      · refine ⟨?_, rfl, ?_⟩
        · show (if length > 4096 then 4096 else length) = min length 4096
          split <;> omega
        · show requests_ok (length - (wr call _).toNat) calls
          rw [hr, Int.toNat_natCast]; exact hreq
      · simp only [transferred, List.map_cons, List.sum_cons] at htr ⊢
        rw [htr, hr]; omega
      · intro c hc
        rcases List.mem_cons.1 hc with rfl | hc
        · exact ⟨hlo, hhi⟩
        · exact hall c hc
      · rw [hpos, hsw]; simp only []; omega
      · intro m hd hp
        have := hdata (m + r) (by rw [hsw]; simp only []; rw [hd, hp, store_at_end,
          List.replicate_add]) (by rw [hsw]; simp only []; omega)
        rw [this]; congr 1; omega

/-- If no zero-fill `write` returns 0 or more than it was asked for, the loop of
`write_zeros` ends within `length + 1` rounds (with 0 or with -1). -/
theorem write_zeros_returns (wr : Nat → Nat → Int)
    (h : ∀ c req, 1 ≤ req → wr c req ≠ 0 ∧ wr c req ≤ (req : Int)) :
    ∀ fuel call f length, length < fuel →
      ∃ r, write_zeros wr fuel call f length = some r := by
  intro fuel
  induction fuel with
  | zero => intro call f length hlt; omega
  | succ fuel ih =>
    intro call f length hlt
    by_cases h0 : length = 0
    · exact ⟨_, by rw [write_zeros, if_pos h0]⟩
    · have htw : 1 ≤ (if length > 4096 then 4096 else length) := by split <;> omega
      have htl : (if length > 4096 then 4096 else length) ≤ length := by split <;> omega
      obtain ⟨hne, hhi⟩ := h call _ htw
      by_cases hneg : wr call (if length > 4096 then 4096 else length) < 0
      · exact ⟨_, by rw [write_zeros, if_neg h0]; simp only []; rw [if_pos hneg]⟩
      · have hlen : ((((length : Int) - wr call (if length > 4096 then 4096 else length))
            % (SIZE_MOD : Int)).toNat) < fuel := by
          have h1 : 1 ≤ wr call (if length > 4096 then 4096 else length) := by omega
          have h2 : (0 : Int) ≤ (length : Int)
              - wr call (if length > 4096 then 4096 else length) := by omega
          obtain ⟨d, hd⟩ := Int.eq_ofNat_of_zero_le h2
          rw [hd, ← Int.natCast_mod, Int.toNat_natCast]
          have h3 := Nat.mod_le d SIZE_MOD
          omega
        obtain ⟨r, hr⟩ := ih (call + 1) (sys_write f zero_buf
          (if length > 4096 then 4096 else length)
          (wr call (if length > 4096 then 4096 else length))) _ hlen
        obtain ⟨a, b, c⟩ := r
        exact ⟨_, by rw [write_zeros, if_neg h0]; simp only []; rw [if_neg hneg, hr]⟩

/-- C10: when every `write` transfers at least 1 and at most the requested
number of bytes, `write_zeros(fd, length)` returns 0 (any fuel above `length`
is enough), each request is for `min remaining 4096` bytes of the zero buffer,
and the transfers add up to `length`. -/
theorem write_zeros_spec (wr : Nat → Nat → Int) (f : File) (length fuel : Nat)
    (hsz : length < SIZE_MOD) (hfuel : length < fuel)
    (h : ∀ c req, 1 ≤ req → 1 ≤ wr c req ∧ wr c req ≤ (req : Int)) :
    ∃ f' calls, write_zeros wr fuel 0 f length = some (0, f', calls)
      ∧ requests_ok length calls ∧ transferred calls = (length : Int)
      ∧ (∀ c ∈ calls, c.buf = List.replicate 4096 0) := by
  obtain ⟨f', calls, hrun, hreq, htr, -, -, -⟩ :=
    write_zeros_progress wr h fuel 0 f length hfuel hsz
  refine ⟨f', calls, hrun, hreq, htr, ?_⟩
  have hbuf : ∀ (rem : Nat) (l : List WriteCall), requests_ok rem l →
      ∀ c ∈ l, c.buf = List.replicate 4096 0 := by
    intro rem l
    induction l generalizing rem with
    | nil => intro _ c hc; cases hc
    | cons a l ih =>
      intro hl c hc
      rcases List.mem_cons.1 hc with rfl | hc
      · exact hl.2.1
      · exact ih _ hl.2.2 c hc
  exact hbuf length calls hreq

theorem write_zeros_spec_witness :
    ∃ f' calls, write_zeros (fun _ req => min (req : Int) 1000) 5001 0 File.fresh 5000
        = some (0, f', calls)
      ∧ requests_ok 5000 calls ∧ transferred calls = ((5000 : Nat) : Int)
      ∧ (∀ c ∈ calls, c.buf = List.replicate 4096 0) :=
  write_zeros_spec (fun _ req => min (req : Int) 1000) File.fresh 5000 5001
    (by norm_num [SIZE_MOD]) (by norm_num)
    (by intro c req hreq; exact ⟨by simp; omega, by simp⟩)

/-! ## Buffer size -/

/-- C8 (the code at `-b 4096`): the `unsigned int` product
`cfg.buf_size_mb * 1024 * 1024` wraps to 0 although `4096 * 1048576` is not 0. -/
theorem main_bufsize_4096 :
    main_bufsize 4096 = 0 ∧ main_bufsize 4096 ≠ 4096 * 1048576
      ∧ main_bufsize 4097 = 1048576 := by
  refine ⟨by decide, by decide, by decide⟩

/-- Below 4096 MB the conversion is exact and positive. -/
theorem main_bufsize_small (m : Nat) (h0 : 0 < m) (h : m < 4096) :
    main_bufsize m = m * 1048576 ∧ 0 < main_bufsize m := by
  unfold main_bufsize UINT_MOD
  omega

/-- In general the value is the exact product reduced modulo `2 ^ 32`. -/
theorem main_bufsize_mod (m : Nat) : main_bufsize m = (m * 1048576) % 2 ^ 32 := by
  unfold main_bufsize UINT_MOD
  omega

/-! ## File names -/

theorem digit_char_val (d : Nat) (h : d < 10) : char_val (digit_char d) = d := by
  interval_cases d <;> rfl

theorem digit_char_ne_dash (d : Nat) (h : d < 10) : digit_char d ≠ '-' := by
  interval_cases d <;> decide

theorem fmt_digits_foldl (fuel : Nat) : ∀ n acc, n < fuel →
    (fmt_digits fuel n acc).foldl (fun v c => 10 * v + char_val c) 0
      = acc.foldl (fun v c => 10 * v + char_val c) n := by
  induction fuel with
  | zero => intro n acc h; omega
  | succ fuel ih =>
    intro n acc h
    unfold fmt_digits
    by_cases hn : n < 10
    · rw [if_pos hn]
      simp [digit_char_val n hn]
    · rw [if_neg hn, ih (n / 10) _ (by omega)]
      simp only [List.foldl_cons]
      rw [digit_char_val _ (Nat.mod_lt _ (by norm_num))]
      congr 1
      omega

theorem fmt_digits_dash (fuel : Nat) : ∀ n acc,
    '-' ∈ fmt_digits fuel n acc → '-' ∈ acc := by
  induction fuel with
  | zero => intro n acc h; simpa [fmt_digits] using h
  | succ fuel ih =>
    intro n acc h
    unfold fmt_digits at h
    by_cases hn : n < 10
    · rw [if_pos hn] at h
      rcases List.mem_cons.1 h with h | h
      · exact absurd h.symm (digit_char_ne_dash n hn)
      · exact h
    · rw [if_neg hn] at h
      rcases List.mem_cons.1 (ih _ _ h) with h | h
      · exact absurd h.symm (digit_char_ne_dash _ (Nat.mod_lt _ (by norm_num)))
      · exact h

theorem decode_fmt_u (n : Nat) : decode (fmt_u n) = n := by
  unfold decode fmt_u
  rw [fmt_digits_foldl (n + 1) n [] (by omega)]
  rfl

theorem fmt_u_no_dash (n : Nat) : '-' ∉ fmt_u n := by
  intro h
  have := fmt_digits_dash _ _ _ h
  cases this

theorem decode_zeros (k : Nat) (cs : List Char) :
    decode (List.replicate k '0' ++ cs) = decode cs := by
  unfold decode
  rw [List.foldl_append]
  congr 1
  induction k with
  | zero => rfl
  | succ k ih => rw [List.replicate_succ, List.foldl_cons]; exact ih

theorem decode_fmt_05d (i : Nat) : decode (fmt_05d i) = i := by
  unfold fmt_05d
  rw [decode_zeros, decode_fmt_u]

theorem fmt_05d_no_dash (i : Nat) : '-' ∉ fmt_05d i := by
  unfold fmt_05d
  intro h
  rcases List.mem_append.1 h with h | h
  · have := (List.mem_replicate.1 h).2
    exact absurd this (by decide)
  · exact fmt_u_no_dash i h

/-- The path is determined by, and determines, the 32-bit `tid` and the index:
two paths in the same directory are equal exactly when both agree. -/
theorem sprintf_fn_inj (dir : String) (tid1 tid2 i1 i2 : Nat) :
    sprintf_fn dir tid1 i1 = sprintf_fn dir tid2 i2 ↔ tid1 = tid2 ∧ i1 = i2 := by
  constructor
  · intro h
    unfold sprintf_fn at h
    have h0 := congrArg String.data h
    simp only [List.append_assoc, List.cons_append] at h0
    have h2 := List.cons.inj (List.append_cancel_left h0)
    have hz : '-' ∉ fmt_05d i1 ++ ".dat".data := by
      intro hm
      rcases List.mem_append.1 hm with hm | hm
      · exact fmt_05d_no_dash i1 hm
      · revert hm; decide
    obtain ⟨ht, -, hi⟩ := (List.append_cons_inj_of_not_mem (fmt_u_no_dash tid1) hz).1 h2.2
    have hi' := List.append_cancel_right hi
    refine ⟨?_, ?_⟩
    · have := congrArg decode ht
      rwa [decode_fmt_u, decode_fmt_u] at this
    · have := congrArg decode hi'
      rwa [decode_fmt_05d, decode_fmt_05d] at this
  · rintro ⟨rfl, rfl⟩
    rfl

/-! ## Path lengths -/

theorem digit_char_size (d : Nat) (h : d < 10) : (digit_char d).utf8Size = 1 := by
  interval_cases d <;> decide

theorem fmt_digits_size (fuel : Nat) : ∀ n acc d, 1 ≤ d → n < 10 ^ d →
    String.utf8Len (fmt_digits fuel n acc) ≤ d + String.utf8Len acc := by
  induction fuel with
  | zero => intro n acc d _ _; simp only [fmt_digits]; omega
  | succ fuel ih =>
    intro n acc d hd hn
    unfold fmt_digits
    by_cases h10 : n < 10
    · rw [if_pos h10, String.utf8Len_cons, digit_char_size n h10]
      omega
    · rw [if_neg h10]
      obtain ⟨e, rfl⟩ : ∃ e, d = e + 1 := ⟨d - 1, by omega⟩
      have he : 1 ≤ e := by
        rcases Nat.eq_zero_or_pos e with rfl | h
        · simp at hn; omega
        · exact h
      have hdiv : n / 10 < 10 ^ e := by
        rw [Nat.div_lt_iff_lt_mul (by norm_num)]
        rw [pow_succ] at hn
        exact hn
      have := ih (n / 10) (digit_char (n % 10) :: acc) e he hdiv
      rw [String.utf8Len_cons, digit_char_size _ (Nat.mod_lt _ (by norm_num))] at this
      omega

theorem fmt_u_size (n : Nat) (h : n < 10 ^ 10) : String.utf8Len (fmt_u n) ≤ 10 := by
  have := fmt_digits_size (n + 1) n [] 10 (by norm_num) h
  simpa [fmt_u] using this

theorem zeros_size (k : Nat) : String.utf8Len (List.replicate k '0') = k := by
  induction k with
  | zero => rfl
  | succ k ih =>
    rw [List.replicate_succ, String.utf8Len_cons, ih]
    rfl

theorem fmt_05d_size (i : Nat) (h : i < 10 ^ 10) : String.utf8Len (fmt_05d i) ≤ 15 := by
  unfold fmt_05d
  rw [String.utf8Len_append, zeros_size]
  have := fmt_u_size i h
  omega

/-- A path takes at most 31 bytes more than the directory. -/
theorem sprintf_fn_size (dir : String) (tid i : Nat) (ht : tid < 10 ^ 10) (hi : i < 10 ^ 10) :
    (sprintf_fn dir tid i).utf8ByteSize ≤ dir.utf8ByteSize + 31 := by
  have h1 := fmt_u_size tid ht
  have h2 := fmt_05d_size i hi
  have h3 : String.utf8Len ".dat".data = 4 := by decide
  have h4 : ('/' : Char).utf8Size = 1 := by decide
  have h5 : ('-' : Char).utf8Size = 1 := by decide
  have h6 : dir.utf8ByteSize = String.utf8Len dir.data := rfl
  unfold sprintf_fn
  rw [String.utf8ByteSize_mk]
  simp only [String.utf8Len_append, String.utf8Len_cons, h3, h4, h5, h6]
  omega

/-- A path is longer than its directory. -/
theorem sprintf_fn_size_ge (dir : String) (tid i : Nat) :
    dir.utf8ByteSize < (sprintf_fn dir tid i).utf8ByteSize := by
  have h4 : ('/' : Char).utf8Size = 1 := by decide
  have h6 : dir.utf8ByteSize = String.utf8Len dir.data := rfl
  rw [h6]
  unfold sprintf_fn
  rw [String.utf8ByteSize_mk]
  simp only [String.utf8Len_append, String.utf8Len_cons, h4]
  omega

/-- The command takes 13 bytes more than the directory. -/
theorem sprintf_cmd_size (dir : String) :
    (sprintf_cmd dir).utf8ByteSize = dir.utf8ByteSize + 13 := by
  have h1 : String.utf8Len "rm -rf ".data = 7 := by decide
  have h2 : String.utf8Len "/*.dat".data = 6 := by decide
  have h6 : dir.utf8ByteSize = String.utf8Len dir.data := rfl
  unfold sprintf_cmd
  rw [String.utf8ByteSize_mk]
  simp only [String.utf8Len_append, h1, h2, h6]
  omega

/-- C5 (the code at two thread identifiers 2^32 apart): the conversion of
`pthread_self()` to `unsigned int` gives both workers the same `tid`, so in the
same iteration they format the same path although the identifiers differ. -/
theorem sprintf_fn_collision :
    (139888636716800 : Nat) ≠ 139884341749504
      ∧ 139888636716800 < SIZE_MOD ∧ 139884341749504 < SIZE_MOD
      ∧ sprintf_fn "/out" (tid_of 139888636716800) 0
          = sprintf_fn "/out" (tid_of 139884341749504) 0 := by
  refine ⟨by decide, by decide, by decide, ?_⟩
  have h : tid_of 139888636716800 = tid_of 139884341749504 := by decide
  rw [h]

/-! ## The loop of `save_thread` -/

theorem zero_write_events (i : Nat) (calls : List WriteCall) :
    payload_calls (calls.map (Event.zero_write i)) = 0
      ∧ opens (calls.map (Event.zero_write i)) = []
      ∧ adds (calls.map (Event.zero_write i)) = []
      ∧ ∀ e ∈ calls.map (Event.zero_write i), e.iter = some i := by
  refine ⟨?_, ?_, ?_, ?_⟩
  · simp [payload_calls]
  · simp [opens]
  · simp [adds]
  · intro e he
    obtain ⟨c, -, rfl⟩ := List.mem_map.1 he
    rfl

theorem save_iter_events (fuel : Nat) (st : savethrd) (env : ThreadEnv)
    (tmpbuf : Option (List Nat)) (i : Nat) (f : File) (tmpbuf' : Option (List Nat))
    (evs : List Event) (h : save_iter fuel st env tmpbuf i = .ok (f, tmpbuf', evs)) :
    (payload_calls evs = 1 ∧ opens evs = [] ∧ adds evs = []
      ∧ (∀ e ∈ evs, e.iter = some i)) ∧ (tmpbuf.isSome → tmpbuf'.isSome) := by
  unfold save_iter at h
  simp only [] at h
  split at h
  · cases h
  · rename_i f1 ev1 hr1
    have hev1 : payload_calls ev1 = 0 ∧ opens ev1 = [] ∧ adds ev1 = []
        ∧ ∀ e ∈ ev1, e.iter = some i := by
      split at hr1
      · split at hr1
        · cases hr1
        · rename_i r0 f0 calls hwz
          cases hr1
          obtain ⟨z1, z2, z3, z4⟩ := zero_write_events i calls
          refine ⟨?_, ?_, ?_, ?_⟩
          · simp [payload_calls]
          · simp [opens]
          · simp [adds]
          · intro e he
            rcases List.mem_cons.1 he with rfl | he
            · rfl
            rcases List.mem_cons.1 he with rfl | he
            · rfl
            exact z4 e he
      · cases hr1
        simp [payload_calls, opens, adds, Event.iter]
    obtain ⟨p1, p2, p3, p4⟩ := hev1
    have key : ∀ tail : List Event, (payload_calls tail = 1 ∧ opens tail = [] ∧
        adds tail = [] ∧ (∀ e ∈ tail, e.iter = some i)) →
        payload_calls (ev1 ++ tail) = 1 ∧ opens (ev1 ++ tail) = [] ∧ adds (ev1 ++ tail) = []
          ∧ (∀ e ∈ ev1 ++ tail, e.iter = some i) := by
      rintro tail ⟨t1, t2, t3, t4⟩
      refine ⟨?_, ?_, ?_, ?_⟩
      · unfold payload_calls at *
        rw [List.countP_append, p1, t1]
      · unfold opens at *
        rw [List.filterMap_append, p2, t2]; rfl
      · unfold adds at *
        rw [List.filterMap_append, p3, t3]; rfl
      · intro e he
        rcases List.mem_append.1 he with he | he
        · exact p4 e he
        · exact t4 e he
    split at h
    · split at h
      · split at h
        · cases h
          exact ⟨key _ ⟨by simp [payload_calls], by simp [opens], by simp [adds],
            by simp [Event.iter]⟩, by simp⟩
        · cases h
      · cases h
        exact ⟨key _ ⟨by simp [payload_calls], by simp [opens], by simp [adds],
          by simp [Event.iter]⟩, by simp⟩
    · cases h
      exact ⟨key _ ⟨by simp [payload_calls], by simp [opens], by simp [adds],
        by simp [Event.iter]⟩, fun h => h⟩

theorem save_loop_zero (fuel : Nat) (st : savethrd) (env : ThreadEnv) (i : Nat)
    (tmpbuf : Option (List Nat)) (bytes : Nat) :
    save_loop fuel st env 0 i tmpbuf bytes = .ok { bytes := bytes, files := [], trace := [] } :=
  rfl

theorem save_loop_succ (fuel : Nat) (st : savethrd) (env : ThreadEnv) (todo i : Nat)
    (tmpbuf : Option (List Nat)) (bytes : Nat) (r : LoopResult)
    (h : save_loop fuel st env (todo + 1) i tmpbuf bytes = .ok r) :
    (sprintf_fn st.output_dir (tid_of env.pthread_self) i).utf8ByteSize + 1 ≤ PATH_MAX
    ∧ ((env.open_ret i < 0 ∧ r = LoopResult.mk bytes []
        [Event.open_file i (sprintf_fn st.output_dir (tid_of env.pthread_self) i)
          (env.open_ret i), Event.open_error i])
    ∨ (0 ≤ env.open_ret i ∧ ∃ f tmpbuf' evs r',
        save_iter fuel st env tmpbuf i = .ok (f, tmpbuf', evs)
        ∧ save_loop fuel st env todo (i + 1) tmpbuf' ((bytes + st.bufsize) % SIZE_MOD) = .ok r'
        ∧ r = LoopResult.mk r'.bytes
            ((sprintf_fn st.output_dir (tid_of env.pthread_self) i, f) :: r'.files)
            (Event.open_file i (sprintf_fn st.output_dir (tid_of env.pthread_self) i)
              (env.open_ret i) :: evs ++ r'.trace))) := by
  rw [save_loop] at h
  by_cases hov : PATH_MAX
      < (sprintf_fn st.output_dir (tid_of env.pthread_self) i).utf8ByteSize + 1
  · rw [if_pos hov] at h
    cases h
  · rw [if_neg hov] at h
    simp only [] at h
    refine ⟨by omega, ?_⟩
    by_cases hneg : env.open_ret i < 0
    · rw [if_pos hneg] at h
      left
      exact ⟨hneg, (Except.ok.inj h).symm⟩
    · rw [if_neg hneg] at h
      right
      refine ⟨by omega, ?_⟩
      split at h
      · cases h
      · rename_i f tmpbuf' evs hit
        split at h
        · cases h
        · rename_i r' hr'
          exact ⟨f, tmpbuf', evs, r', hit, hr', (Except.ok.inj h).symm⟩

theorem payload_calls_append (a b : List Event) :
    payload_calls (a ++ b) = payload_calls a + payload_calls b := by
  unfold payload_calls; exact List.countP_append _ _ _

theorem opens_append (a b : List Event) : opens (a ++ b) = opens a ++ opens b := by
  unfold opens; exact List.filterMap_append _ _ _

theorem adds_append (a b : List Event) : adds (a ++ b) = adds a ++ adds b := by
  unfold adds; exact List.filterMap_append _ _ _

theorem trace_open_cons (i : Nat) (fn : String) (fd : Int) (l : List Event) :
    payload_calls (Event.open_file i fn fd :: l) = payload_calls l
      ∧ opens (Event.open_file i fn fd :: l) = i :: opens l
      ∧ adds (Event.open_file i fn fd :: l) = adds l := by
  refine ⟨by simp [payload_calls], by simp [opens], by simp [adds]⟩

theorem save_loop_ok (fuel : Nat) (st : savethrd) (env : ThreadEnv) :
    ∀ todo i tmpbuf bytes r, bytes < SIZE_MOD →
    save_loop fuel st env todo i tmpbuf bytes = .ok r →
    r.files.length ≤ todo
    ∧ r.bytes = (bytes + r.files.length * st.bufsize) % SIZE_MOD
    ∧ (∀ j, j < r.files.length → 0 ≤ env.open_ret (i + j))
    ∧ (r.files.length < todo → env.open_ret (i + r.files.length) < 0)
    ∧ payload_calls r.trace = r.files.length
    ∧ adds r.trace = []
    ∧ opens r.trace
        = List.range' i (if r.files.length < todo then r.files.length + 1 else r.files.length)
    ∧ (∀ e ∈ r.trace, ∃ j, e.iter = some j ∧ i ≤ j
        ∧ (j < i + r.files.length ∨ (j = i + r.files.length ∧ e.touches_file = false)))
    ∧ (∀ j (hj : j < r.files.length), ∃ tj tj' evs,
        save_iter fuel st env tj (i + j) = .ok ((r.files.get ⟨j, hj⟩).2, tj', evs)
        ∧ (r.files.get ⟨j, hj⟩).1 = sprintf_fn st.output_dir (tid_of env.pthread_self) (i + j)
        ∧ (tmpbuf.isSome → tj.isSome)) := by
  intro todo
  induction todo with
  | zero =>
    intro i tmpbuf bytes r hb h
    rw [save_loop_zero] at h
    cases h
    refine ⟨by simp, by simp [Nat.mod_eq_of_lt hb], by simp, by simp, by simp [payload_calls],
      by simp [adds], by simp [opens], by simp, by simp⟩
  | succ todo ih =>
    intro i tmpbuf bytes r hb h
    rcases (save_loop_succ fuel st env todo i tmpbuf bytes r h).2 with
      ⟨hneg, rfl⟩ | ⟨hpos, f, tmpbuf', evs, r', hit, hr', rfl⟩
    · refine ⟨by simp, by simp [Nat.mod_eq_of_lt hb], by simp, by simpa using hneg,
        by simp [payload_calls], by simp [adds], by simp [opens], ?_, by simp⟩
      intro e he
      refine ⟨i, ?_, le_refl _, Or.inr ⟨by simp, ?_⟩⟩
      · simp at he
        rcases he with rfl | rfl <;> rfl
      · simp at he
        rcases he with rfl | rfl <;> rfl
    · obtain ⟨⟨e1, e2, e3, e4⟩, e5⟩ := save_iter_events fuel st env tmpbuf i f tmpbuf' evs hit
      obtain ⟨h1, h2, h3, h4, h5, h6, h7, h8, h9⟩ :=
        ih (i + 1) tmpbuf' ((bytes + st.bufsize) % SIZE_MOD) r'
          (Nat.mod_lt _ (by norm_num [SIZE_MOD])) hr'
      refine ⟨?_, ?_, ?_, ?_, ?_, ?_, ?_, ?_, ?_⟩
      · simp only [List.length_cons]; omega
      · simp only [List.length_cons]
        rw [h2, Nat.succ_mul]
        generalize r'.files.length * st.bufsize = x
        unfold SIZE_MOD
        omega
      · intro j hj
        simp only [List.length_cons] at hj
        cases j with
        | zero => simpa using hpos
        | succ j =>
          have := h3 j (by omega)
          rwa [show i + (j + 1) = i + 1 + j by omega]
      · intro hlt
        simp only [List.length_cons] at hlt ⊢
        have := h4 (by omega)
        rwa [show i + (r'.files.length + 1) = i + 1 + r'.files.length by omega]
      · show payload_calls (_ :: (evs ++ r'.trace)) = r'.files.length + 1
        rw [(trace_open_cons _ _ _ _).1, payload_calls_append, e1, h5]
        omega
      · show adds (_ :: (evs ++ r'.trace)) = []
        rw [(trace_open_cons _ _ _ _).2.2, adds_append, e3, h6]
        rfl
      · simp only [List.length_cons]
        show opens (_ :: (evs ++ r'.trace)) = _
        rw [(trace_open_cons _ _ _ _).2.1, opens_append, e2, h7]
        simp only [List.nil_append]
        by_cases hm : r'.files.length < todo
        · rw [if_pos hm, if_pos (by omega)]
          simp [List.range'_succ]
        · rw [if_neg hm, if_neg (by omega)]
          simp [List.range'_succ]
      · intro e he
        simp only [List.length_cons]
        rcases List.mem_cons.1 he with rfl | he
        · exact ⟨i, rfl, le_refl _, Or.inl (by omega)⟩
        rcases List.mem_append.1 he with he | he
        · exact ⟨i, e4 e he, le_refl _, Or.inl (by omega)⟩
        · obtain ⟨j, hj1, hj2, hj3⟩ := h8 e he
          refine ⟨j, hj1, by omega, ?_⟩
          rcases hj3 with hj3 | ⟨hj3, hj4⟩
          · left; omega
          · right; exact ⟨by omega, hj4⟩
      · intro j hj
        cases j with
        | zero => exact ⟨tmpbuf, tmpbuf', evs, hit, rfl, fun h => h⟩
        | succ j =>
          simp only [List.length_cons] at hj
          obtain ⟨tj, tj', evs', hs, hn, hsome⟩ := h9 j (by omega)
          refine ⟨tj, tj', evs', ?_, ?_, fun h => hsome (e5 h)⟩
          · rw [show i + (j + 1) = i + 1 + j by omega]; exact hs
          · rw [show i + (j + 1) = i + 1 + j by omega]; exact hn


/-! ## Termination of a worker -/

theorem save_iter_returns (fuel : Nat) (st : savethrd) (env : ThreadEnv)
    (tmpbuf : Option (List Nat)) (i : Nat) (hret : env.returns st) (hfuel : st.bufsize < fuel)
    (htmp : st.no_direct_dma ≠ 0 → st.bufsize ≠ 0 → tmpbuf.isSome) :
    ∃ x, save_iter fuel st env tmpbuf i = .ok x := by
  have hr1 : ∃ y, (if env.fallocate_ret i ≠ 0 then
      match write_zeros (env.zero_write_ret i) fuel 0 File.fresh st.bufsize with
      | none => (Except.error Stop.out_of_fuel : Except Stop (File × List Event))
      | some (_, f, calls) =>
        .ok (f, Event.fallocate i st.bufsize (env.fallocate_ret i) :: Event.perror_fallocate i
              :: calls.map (Event.zero_write i))
    else .ok (sys_fallocate File.fresh st.bufsize (env.stale i),
      [Event.fallocate i st.bufsize 0])) = .ok y := by
    by_cases hfa : env.fallocate_ret i ≠ 0
    · rw [if_pos hfa]
      obtain ⟨⟨a, b, c⟩, hwz⟩ := write_zeros_returns (env.zero_write_ret i) (hret.2.1 i) fuel 0
        File.fresh st.bufsize hfuel
      rw [hwz]
      exact ⟨_, rfl⟩
    · rw [if_neg hfa]
      exact ⟨_, rfl⟩
  obtain ⟨⟨f1, ev1⟩, hy⟩ := hr1
  unfold save_iter
  simp only []
  rw [hy]
  simp only []
  by_cases hd : st.no_direct_dma ≠ 0
  · rw [if_pos hd]
    cases tmpbuf with
    | some t => exact ⟨_, rfl⟩
    | none =>
      simp only []
      by_cases hb : st.bufsize = 0
      · rw [if_pos hb]; exact ⟨_, rfl⟩
      · exact absurd (htmp hd hb) (by simp)
  · rw [if_neg hd]
    exact ⟨_, rfl⟩

theorem save_loop_returns (fuel : Nat) (st : savethrd) (env : ThreadEnv)
    (hret : env.returns st) (hfuel : st.bufsize < fuel) :
    ∀ todo i tmpbuf bytes,
      (st.no_direct_dma ≠ 0 → st.bufsize ≠ 0 → tmpbuf.isSome) →
      (∀ j, i ≤ j → j < i + todo → (∀ l, i ≤ l → l < j → 0 ≤ env.open_ret l) →
        (sprintf_fn st.output_dir (tid_of env.pthread_self) j).utf8ByteSize + 1 ≤ PATH_MAX) →
      ∃ r, save_loop fuel st env todo i tmpbuf bytes = .ok r := by
  intro todo
  induction todo with
  | zero => intro i tmpbuf bytes _ _; exact ⟨_, rfl⟩
  | succ todo ih =>
    intro i tmpbuf bytes htmp hreach
    rw [save_loop]
    have hfits := hreach i (le_refl _) (by omega) (fun l h1 h2 => by omega)
    rw [if_neg (by omega)]
    by_cases hneg : env.open_ret i < 0
    · simp only []
      rw [if_pos hneg]; exact ⟨_, rfl⟩
    · simp only []
      rw [if_neg hneg]
      obtain ⟨⟨f, tmpbuf', evs⟩, hit⟩ := save_iter_returns fuel st env tmpbuf i hret hfuel htmp
      have e5 := (save_iter_events fuel st env tmpbuf i f tmpbuf' evs hit).2
      obtain ⟨r', hr'⟩ := ih (i + 1) tmpbuf' ((bytes + st.bufsize) % SIZE_MOD)
        (fun hd hb => e5 (htmp hd hb))
        (fun j h1 h2 hpre => hreach j (by omega) (by omega) (fun l h3 h4 => by
          rcases Nat.eq_or_lt_of_le h3 with rfl | h5
          · omega
          · exact hpre l (by omega) h4))
      rw [hit]
      simp only []
      rw [hr']
      exact ⟨_, rfl⟩

theorem save_thread_returns (fuel : Nat) (st : savethrd) (env : ThreadEnv)
    (hret : env.returns st) (hfuel : st.bufsize < fuel) :
    ∃ r, save_thread fuel st env = .ok r := by
  obtain ⟨r0, hr0⟩ := save_loop_returns fuel st env hret hfuel st.write_count.toNat 0
    (if env.malloc_ok then some ((List.range st.bufsize).map env.malloc_garbage) else none) 0
    (by intro hd hb; rw [hret.1 hd hb]; rfl)
    (fun j _ h2 hpre => hret.2.2 j (by omega) (fun l hl => hpre l (Nat.zero_le _) hl))
  unfold save_thread
  simp only []
  rw [hr0]
  exact ⟨_, rfl⟩

theorem save_thread_ok (fuel : Nat) (st : savethrd) (env : ThreadEnv) (r : LoopResult)
    (h : save_thread fuel st env = .ok r) :
    ∃ r0, save_loop fuel st env st.write_count.toNat 0
        (if env.malloc_ok then some ((List.range st.bufsize).map env.malloc_garbage) else none) 0
        = .ok r0
      ∧ r.bytes = r0.bytes ∧ r.files = r0.files
      ∧ r.trace = Event.malloc_tmpbuf st.bufsize :: r0.trace
          ++ [Event.free_tmpbuf, Event.sync_add r0.bytes, Event.worker_finish_thread] := by
  unfold save_thread at h
  simp only [] at h
  split at h
  · cases h
  · rename_i r0 hr0
    cases h
    exact ⟨r0, hr0, rfl, rfl, rfl⟩

/-! ## The pool -/

theorem worker_pool_from_ok (fuel : Nat) (st : savethrd) :
    ∀ envs bytes p, bytes < SIZE_MOD → worker_pool_from fuel st bytes envs = .ok p →
      p.workers.length = envs.length
      ∧ (∀ k (hk : k < envs.length) (hk' : k < p.workers.length),
          save_thread fuel st (envs.get ⟨k, hk⟩) = .ok (p.workers.get ⟨k, hk'⟩))
      ∧ p.bytes = (bytes + (p.workers.map (fun r => r.bytes)).sum) % SIZE_MOD := by
  intro envs
  induction envs with
  | nil =>
    intro bytes p hb h
    rw [worker_pool_from] at h
    cases h
    refine ⟨rfl, ?_, ?_⟩
    · intro k hk; exact absurd hk (by simp)
    · simp [Nat.mod_eq_of_lt hb]
  | cons env envs ih =>
    intro bytes p hb h
    rw [worker_pool_from] at h
    split at h
    · cases h
    · rename_i r hr
      split at h
      · cases h
      · rename_i p' hp'
        cases h
        obtain ⟨h1, h2, h3⟩ := ih _ p' (Nat.mod_lt _ (by norm_num [SIZE_MOD])) hp'
        refine ⟨by simp [h1], ?_, ?_⟩
        · intro k hk hk'
          cases k with
          | zero => exact hr
          | succ k => exact h2 k (by simpa using hk) (by simpa using hk')
        · simp only [List.map_cons, List.sum_cons]
          rw [h3]
          unfold SIZE_MOD
          omega

theorem worker_pool_from_returns (fuel : Nat) (st : savethrd) :
    ∀ envs bytes, (∀ env ∈ envs, ∃ r, save_thread fuel st env = .ok r) →
      ∃ p, worker_pool_from fuel st bytes envs = .ok p := by
  intro envs
  induction envs with
  | nil => intro bytes _; exact ⟨_, rfl⟩
  | cons env envs ih =>
    intro bytes h
    obtain ⟨r, hr⟩ := h env (List.mem_cons_self _ _)
    obtain ⟨p', hp'⟩ := ih ((bytes + r.bytes) % SIZE_MOD)
      (fun e he => h e (List.mem_cons_of_mem _ he))
    rw [worker_pool_from, hr]
    simp only []
    rw [hp']
    exact ⟨_, rfl⟩

/-! ## A worker whose first failing `open` is at iteration `k` -/

theorem thread_trace_facts (size b : Nat) (tr : List Event) :
    opens (Event.malloc_tmpbuf size
        :: (tr ++ [Event.free_tmpbuf, Event.sync_add b, Event.worker_finish_thread])) = opens tr
      ∧ adds (Event.malloc_tmpbuf size
        :: (tr ++ [Event.free_tmpbuf, Event.sync_add b, Event.worker_finish_thread]))
          = adds tr ++ [b]
      ∧ payload_calls (Event.malloc_tmpbuf size
        :: (tr ++ [Event.free_tmpbuf, Event.sync_add b, Event.worker_finish_thread]))
          = payload_calls tr := by
  refine ⟨?_, ?_, ?_⟩
  · simp [opens, List.filterMap_append]
  · simp [adds, List.filterMap_append]
  · simp [payload_calls, List.countP_append]

theorem save_thread_first_fail (fuel : Nat) (st : savethrd) (env : ThreadEnv) (k : Nat)
    (hret : env.returns st) (hfuel : st.bufsize < fuel)
    (hk : k ≤ st.write_count.toNat)
    (hok : ∀ j, j < k → 0 ≤ env.open_ret j)
    (hfail : k < st.write_count.toNat → env.open_ret k < 0)
    (hfit : k * st.bufsize < SIZE_MOD) :
    ∃ r, save_thread fuel st env = .ok r
      ∧ r.files.length = k
      ∧ r.bytes = k * st.bufsize
      ∧ opens r.trace = List.range (if k < st.write_count.toNat then k + 1 else k)
      ∧ adds r.trace = [k * st.bufsize]
      ∧ payload_calls r.trace = k
      ∧ (∀ e ∈ r.trace, ∀ j, e.iter = some j → j < k ∨ (j = k ∧ e.touches_file = false)) := by
  obtain ⟨r, hr⟩ := save_thread_returns fuel st env hret hfuel
  obtain ⟨r0, hr0, hb, hf, ht⟩ := save_thread_ok fuel st env r hr
  obtain ⟨h1, h2, h3, h4, h5, h6, h7, h8, -⟩ :=
    save_loop_ok fuel st env _ 0 _ 0 r0 (by norm_num [SIZE_MOD]) hr0
  have hm : r0.files.length = k := by
    rcases Nat.lt_trichotomy r0.files.length k with hlt | heq | hgt
    · have a := h4 (by omega)
      have b := hok _ hlt
      rw [Nat.zero_add] at a
      omega
    · exact heq
    · have a := h3 k hgt
      have b := hfail (by omega)
      rw [Nat.zero_add] at a
      omega
  rw [hm] at h2 h5 h7 h8
  rw [Nat.zero_add, Nat.mod_eq_of_lt hfit] at h2
  refine ⟨r, hr, by rw [hf, hm], by rw [hb, h2], ?_, ?_, ?_, ?_⟩
  · rw [ht, List.cons_append, (thread_trace_facts _ _ _).1, h7, List.range_eq_range']
  · rw [ht, List.cons_append, (thread_trace_facts _ _ _).2.1, h6, h2]
    rfl
  · rw [ht, List.cons_append, (thread_trace_facts _ _ _).2.2, h5]
  · intro e he j hj
    rw [ht, List.cons_append] at he
    rcases List.mem_cons.1 he with rfl | he
    · cases hj
    rcases List.mem_append.1 he with he | he
    · obtain ⟨j', hj1, -, hj3⟩ := h8 e he
      rw [hj1] at hj
      cases hj
      simpa using hj3
    · simp at he
      rcases he with rfl | rfl | rfl <;> cases hj

/-! ## What one iteration leaves in the file -/

theorem store_at_zero_full (d chunk : List Nat) (h : d.length ≤ chunk.length) :
    store_at d 0 chunk = chunk := by
  unfold store_at
  rw [List.drop_eq_nil_of_le (by omega)]
  simp

theorem memcpy_take (t buf : List Nat) (b : Nat) (h : b ≤ buf.length) :
    ((memcpy t buf b).take b).take b = buf.take b := by
  unfold memcpy
  rw [List.take_take, Nat.min_self]
  exact List.take_left' (by simp [h])

theorem sys_write_full (f : File) (src : List Nat) (b : Nat) (h : (src.take b).length = b) :
    sys_write f src b (b : Int)
      = { data := store_at f.data f.pos (src.take b), pos := f.pos + b } := by
  unfold sys_write
  rw [if_neg (by omega)]
  simp only [Int.toNat_natCast, List.take_take, Nat.min_self, h]

theorem save_iter_buffered (fuel : Nat) (st : savethrd) (env : ThreadEnv)
    (tmpbuf : Option (List Nat)) (i : Nat) (f : File) (tmpbuf' : Option (List Nat))
    (evs : List Event) (h : save_iter fuel st env tmpbuf i = .ok (f, tmpbuf', evs))
    (hd : st.no_direct_dma ≠ 0) (hfa : env.fallocate_ret i = 0)
    (hw : env.write_ret i = (st.bufsize : Int)) (hbuf : st.bufsize ≤ st.buf.length) :
    f = { data := st.buf.take st.bufsize, pos := st.bufsize } := by
  unfold save_iter at h
  simp only [] at h
  rw [if_neg (by simpa using hfa)] at h
  simp only [] at h
  rw [if_pos hd, hw] at h
  cases tmpbuf with
  | none =>
    simp only [] at h
    split at h
    · rename_i hb
      cases h
      simp [sys_write, store_at, sys_fallocate, File.fresh, hb]
    · cases h
  | some t =>
    simp only [] at h
    cases h
    rw [sys_write_full _ _ _ (by simp [memcpy, hbuf])]
    have hm : (memcpy t st.buf st.bufsize).take st.bufsize = st.buf.take st.bufsize := by
      have := memcpy_take t st.buf st.bufsize hbuf
      rwa [List.take_take, Nat.min_self] at this
    rw [hm]
    simp only [sys_fallocate, File.fresh, Nat.zero_add]
    rw [store_at_zero_full _ _ (by simp [hbuf])]

theorem save_iter_fallback (fuel : Nat) (st : savethrd) (env : ThreadEnv)
    (tmpbuf : Option (List Nat)) (i : Nat) (f : File) (tmpbuf' : Option (List Nat))
    (evs : List Event) (h : save_iter fuel st env tmpbuf i = .ok (f, tmpbuf', evs))
    (hd : st.no_direct_dma ≠ 0) (hfa : env.fallocate_ret i ≠ 0)
    (hz : ∀ c req, 1 ≤ req →
      1 ≤ env.zero_write_ret i c req ∧ env.zero_write_ret i c req ≤ (req : Int))
    (hw : env.write_ret i = (st.bufsize : Int)) (hbuf : st.bufsize ≤ st.buf.length)
    (hsz : st.bufsize < SIZE_MOD) (hfuel : st.bufsize < fuel) :
    f = { data := List.replicate st.bufsize 0 ++ st.buf.take st.bufsize,
          pos := 2 * st.bufsize } := by
  obtain ⟨f1, calls, hrun, -, -, -, hpos, hdata⟩ :=
    write_zeros_progress (env.zero_write_ret i) hz fuel 0 File.fresh st.bufsize hfuel hsz
  have hdata' := hdata 0 rfl rfl
  rw [Nat.zero_add] at hdata'
  have hpos' : f1.pos = st.bufsize := by rw [hpos]; simp [File.fresh]
  unfold save_iter at h
  simp only [] at h
  rw [if_pos hfa, hrun] at h
  simp only [] at h
  rw [if_pos hd, hw] at h
  cases tmpbuf with
  | none =>
    simp only [] at h
    split at h
    · rename_i hb
      cases h
      rw [hb] at hdata' hpos'
      simp [sys_write, store_at, hb, hdata', hpos']
    · cases h
  | some t =>
    simp only [] at h
    cases h
    rw [sys_write_full _ _ _ (by simp [memcpy, hbuf])]
    have hm : (memcpy t st.buf st.bufsize).take st.bufsize = st.buf.take st.bufsize := by
      have := memcpy_take t st.buf st.bufsize hbuf
      rwa [List.take_take, Nat.min_self] at this
    rw [hm, hdata', hpos', store_at_end]
    congr 1
    omega

/-! ## Totals over the pool -/

theorem sum_one_off (x y w0 : Nat) : ∀ (l : List Nat) (off : Nat),
    (∀ w (hw : w < l.length), l.get ⟨w, hw⟩ = if off + w = w0 then x else y) →
    l.sum = if off ≤ w0 ∧ w0 < off + l.length then (l.length - 1) * y + x
      else l.length * y := by
  intro l
  induction l with
  | nil =>
    intro off _
    rw [if_neg (by simp only [List.length_nil]; omega)]
    simp
  | cons a l ih =>
    intro off h
    have ha := h 0 (by simp)
    have hl := ih (off + 1) (by
      intro w hw
      have := h (w + 1) (by simpa using hw)
      rw [show off + 1 + w = off + (w + 1) by omega]
      simpa using this)
    simp only [List.get_eq_getElem, List.getElem_cons_zero, Nat.add_zero] at ha
    rw [List.sum_cons, hl, ha]
    simp only [List.length_cons]
    by_cases h1 : off = w0
    · subst h1
      rw [if_pos rfl, if_neg (by omega), if_pos (by omega)]
      simp only [Nat.add_sub_cancel]
      omega
    · rw [if_neg h1]
      by_cases h2 : off + 1 ≤ w0 ∧ w0 < off + 1 + l.length
      · rw [if_pos h2, if_pos (by omega)]
        obtain ⟨m, hm⟩ : ∃ m, l.length = m + 1 := ⟨l.length - 1, by omega⟩
        rw [hm]
        simp only [Nat.add_sub_cancel]
        rw [Nat.succ_mul]
        omega
      · rw [if_neg h2, if_neg (by omega), Nat.succ_mul]
        omega

theorem worker_pool_one_short (fuel : Nat) (st : savethrd) (envs : List ThreadEnv)
    (n b w0 k : Nat)
    (hn : st.write_count.toNat = n) (hb : st.bufsize = b) (h0 : st.bytes = 0)
    (hfuel : b < fuel) (hret : ∀ env ∈ envs, env.returns st) (hk : k ≤ n)
    (hothers : ∀ w (hw : w < envs.length), w ≠ w0 →
      ∀ i, i < n → 0 ≤ (envs.get ⟨w, hw⟩).open_ret i)
    (hw0 : ∀ hw : w0 < envs.length,
      (∀ j, j < k → 0 ≤ (envs.get ⟨w0, hw⟩).open_ret j)
        ∧ (k < n → (envs.get ⟨w0, hw⟩).open_ret k < 0))
    (hfit : envs.length * (n * b) < SIZE_MOD) :
    ∃ p, worker_pool fuel st envs = .ok p ∧ p.workers.length = envs.length
      ∧ (∀ w (hw : w < p.workers.length),
          (p.workers.get ⟨w, hw⟩).bytes = (if w = w0 then k else n) * b
          ∧ (p.workers.get ⟨w, hw⟩).files.length = (if w = w0 then k else n)
          ∧ opens (p.workers.get ⟨w, hw⟩).trace
              = List.range (if (if w = w0 then k else n) < n
                  then (if w = w0 then k else n) + 1 else (if w = w0 then k else n))
          ∧ adds (p.workers.get ⟨w, hw⟩).trace = [(if w = w0 then k else n) * b]
          ∧ payload_calls (p.workers.get ⟨w, hw⟩).trace = (if w = w0 then k else n))
      ∧ p.bytes = (if w0 < envs.length then (envs.length - 1) * (n * b) + k * b
          else envs.length * (n * b)) := by
  subst hn hb
  obtain ⟨p, hp⟩ := worker_pool_from_returns fuel st envs st.bytes
    (fun env he => save_thread_returns fuel st env (hret env he) hfuel)
  obtain ⟨hlen, hget, hbytes⟩ := worker_pool_from_ok fuel st envs st.bytes p
    (by rw [h0]; norm_num [SIZE_MOD]) hp
  have hkb : k * st.bufsize ≤ st.write_count.toNat * st.bufsize := Nat.mul_le_mul_right _ hk
  have hworker : ∀ w (hw : w < p.workers.length),
      (p.workers.get ⟨w, hw⟩).bytes = (if w = w0 then k else st.write_count.toNat) * st.bufsize
      ∧ (p.workers.get ⟨w, hw⟩).files.length = (if w = w0 then k else st.write_count.toNat)
      ∧ opens (p.workers.get ⟨w, hw⟩).trace
          = List.range (if (if w = w0 then k else st.write_count.toNat) < st.write_count.toNat
              then (if w = w0 then k else st.write_count.toNat) + 1
              else (if w = w0 then k else st.write_count.toNat))
      ∧ adds (p.workers.get ⟨w, hw⟩).trace
          = [(if w = w0 then k else st.write_count.toNat) * st.bufsize]
      ∧ payload_calls (p.workers.get ⟨w, hw⟩).trace
          = (if w = w0 then k else st.write_count.toNat) := by
    intro w hw
    have hwe : w < envs.length := by omega
    have hrun := hget w hwe hw
    have hpos : 0 < envs.length := by omega
    have hnb : st.write_count.toNat * st.bufsize < SIZE_MOD :=
      lt_of_le_of_lt (Nat.le_mul_of_pos_left _ hpos) hfit
    have hmem : envs.get ⟨w, hwe⟩ ∈ envs := List.get_mem _ _ _
    by_cases hww : w = w0
    · subst hww
      rw [if_pos rfl]
      obtain ⟨r, hr, f1, f2, f3, f4, f5, -⟩ := save_thread_first_fail fuel st
        (envs.get ⟨w, hwe⟩) k (hret _ hmem) hfuel hk (hw0 hwe).1 (hw0 hwe).2 (by omega)
      rw [hrun] at hr
      cases hr
      exact ⟨f2, f1, f3, f4, f5⟩
    · rw [if_neg hww]
      obtain ⟨r, hr, f1, f2, f3, f4, f5, -⟩ := save_thread_first_fail fuel st
        (envs.get ⟨w, hwe⟩) st.write_count.toNat (hret _ hmem) hfuel (le_refl _)
        (hothers w hwe hww) (fun h => absurd h (lt_irrefl _)) hnb
      rw [hrun] at hr
      cases hr
      exact ⟨f2, f1, f3, f4, f5⟩
  refine ⟨p, hp, hlen, hworker, ?_⟩
  have hsum := sum_one_off (k * st.bufsize) (st.write_count.toNat * st.bufsize) w0
    (p.workers.map (fun r => r.bytes)) 0 (by
      intro w hw
      have hw' : w < p.workers.length := by simpa using hw
      have := (hworker w hw').1
      simp only [List.get_eq_getElem, List.getElem_map, Nat.zero_add] at this ⊢
      rw [this]
      split <;> rfl)
  simp only [List.length_map, Nat.zero_add, Nat.zero_le, true_and, hlen] at hsum
  rw [hbytes, h0, Nat.zero_add, hsum]
  apply Nat.mod_eq_of_lt
  split
  · rename_i hlt
    obtain ⟨m, hm⟩ : ∃ m, envs.length = m + 1 := ⟨envs.length - 1, by omega⟩
    rw [hm] at hfit ⊢
    rw [Nat.succ_mul] at hfit
    simp only [Nat.add_sub_cancel]
    omega
  · exact hfit


/-! ## The claims on `save_thread` and the pool -/

/-- With a directory of at most `PATH_MAX - 32` bytes and a count within `int`
every path the loop can format fits `fn`. -/
theorem paths_fit (st : savethrd) (env : ThreadEnv)
    (hdir : st.output_dir.utf8ByteSize + 32 ≤ PATH_MAX) (hn : st.write_count ≤ 2147483647) :
    ∀ i, i < st.write_count.toNat →
      (sprintf_fn st.output_dir (tid_of env.pthread_self) i).utf8ByteSize + 1 ≤ PATH_MAX := by
  intro i hi
  have ht : tid_of env.pthread_self < 10 ^ 10 := by
    have : tid_of env.pthread_self < 2 ^ 32 := Nat.mod_lt _ (by norm_num [UINT_MOD])
    omega
  have hi' : i < 10 ^ 10 := by omega
  have := sprintf_fn_size st.output_dir (tid_of env.pthread_self) i ht hi'
  omega

theorem example_env_returns (st : savethrd) (tid : Nat) (o f w : Nat → Int)
    (hdir : st.output_dir.utf8ByteSize + 32 ≤ PATH_MAX) (hn : st.write_count ≤ 2147483647) :
    (example_env tid o f w).returns st := by
  refine ⟨fun _ _ => rfl, ?_, fun i hi _ => paths_fit st _ hdir hn i hi⟩
  intro i c req hreq
  simp only [example_env]
  omega

theorem example_st_fits (n b : Nat) (hn : n ≤ 2147483647) :
    (example_st n b).output_dir.utf8ByteSize + 32 ≤ PATH_MAX
      ∧ (example_st n b).write_count ≤ 2147483647 := by
  refine ⟨?_, ?_⟩
  · show ("/mnt/princeton/speed_write_test" : String).utf8ByteSize + 32 ≤ PATH_MAX
    decide
  · simp only [example_st]
    omega

/-- C6: a worker attempts its iterations in the order 0, 1, 2, ...; when the
first failing `open` is at iteration `k < n` it makes no call for an iteration
after `k` (and no preallocation or write for `k` itself) and adds `k * b` to the
shared counter once; when no `open` fails (`k = n`) it adds `n * b`.  The run is
one that can end (`env.returns st`): every path formatted in an iteration the
loop reaches, the failing one included, fits `fn[PATH_MAX]`, the scratch buffer
was allocated and the zero fill makes progress. -/
theorem save_thread_stops_at_failed_open (fuel : Nat) (st : savethrd) (env : ThreadEnv)
    (n b k : Nat) (hn : st.write_count.toNat = n) (hb : st.bufsize = b)
    (hret : env.returns st) (hfuel : b < fuel) (hk : k ≤ n)
    (hok : ∀ j, j < k → 0 ≤ env.open_ret j)
    (hfail : k < n → env.open_ret k < 0)
    (hfit : n * b < SIZE_MOD) :
    ∃ r, save_thread fuel st env = .ok r
      ∧ opens r.trace = List.range (if k < n then k + 1 else k)
      ∧ (∀ e ∈ r.trace, ∀ j, e.iter = some j → j < k ∨ (j = k ∧ e.touches_file = false))
      ∧ adds r.trace = [k * b]
      ∧ r.bytes = k * b := by
  subst hn hb
  obtain ⟨r, hr, -, f2, f3, f4, -, f6⟩ := save_thread_first_fail fuel st env k hret hfuel hk
    hok hfail (lt_of_le_of_lt (Nat.mul_le_mul_right _ hk) hfit)
  exact ⟨r, hr, f3, f6, f4, f2⟩

theorem save_thread_stops_at_failed_open_witness :
    ∃ r, save_thread 4097 (example_st 3 4096)
        (example_env 139888636716800 (fun i => if i = 1 then -1 else 3) (fun _ => 0)
          (fun _ => 4096)) = .ok r
      ∧ opens r.trace = List.range (if 1 < 3 then 1 + 1 else 1)
      ∧ (∀ e ∈ r.trace, ∀ j, e.iter = some j → j < 1 ∨ (j = 1 ∧ e.touches_file = false))
      ∧ adds r.trace = [1 * 4096]
      ∧ r.bytes = 1 * 4096 :=
  save_thread_stops_at_failed_open 4097 (example_st 3 4096) _ 3 4096 1 rfl rfl
    (example_env_returns _ _ _ _ _ (example_st_fits _ _ (by norm_num)).1
      (example_st_fits _ _ (by norm_num)).2) (by norm_num) (by norm_num)
    (by intro j hj; interval_cases j; decide) (by intro _; decide)
    (by norm_num [SIZE_MOD])

/-- With `t ≥ 1` workers, a write count `n` that `save_thread` reads from the
`int` field `st.write_count`, and buffer size `b`, when every `open` succeeds
the pool returns and leaves `t * n * b` in the shared counter: each worker makes
`n` payload writes and adds `n * b` once. -/
theorem worker_pool_total (fuel : Nat) (st : savethrd) (envs : List ThreadEnv)
    (t n b : Nat) (ht : envs.length = t) (h1 : 1 ≤ t)
    (hn : st.write_count = (n : Int)) (hb : st.bufsize = b) (h0 : st.bytes = 0)
    (hfuel : b < fuel) (hret : ∀ env ∈ envs, env.returns st)
    (hopen : ∀ env ∈ envs, ∀ i, i < n → 0 ≤ env.open_ret i)
    (hfit : t * n * b < SIZE_MOD) :
    ∃ p, worker_pool fuel st envs = .ok p ∧ p.bytes = t * n * b
      ∧ p.workers.length = t
      ∧ ∀ r ∈ p.workers, payload_calls r.trace = n ∧ adds r.trace = [n * b] := by
  subst ht
  have hn' : st.write_count.toNat = n := by rw [hn]; exact Int.toNat_natCast n
  obtain ⟨p, hp, hlen, hw, hbytes⟩ := worker_pool_one_short fuel st envs n b envs.length n
    hn' hb h0 hfuel hret (le_refl _)
    (fun w hw _ i hi => hopen _ (List.get_mem _ _ _) i hi)
    (fun hw => absurd hw (lt_irrefl _)) (by rw [← Nat.mul_assoc]; exact hfit)
  rw [if_neg (lt_irrefl _)] at hbytes
  refine ⟨p, hp, by rw [hbytes, Nat.mul_assoc], hlen, ?_⟩
  intro r hr
  obtain ⟨⟨w, hw'⟩, rfl⟩ := List.mem_iff_get.1 hr
  obtain ⟨-, -, -, f4, f5⟩ := hw w hw'
  rw [if_neg (by omega)] at f4 f5
  exact ⟨f5, f4⟩

theorem worker_pool_total_witness :
    ∃ p, worker_pool 4097 (example_st 3 4096)
        [example_env 139888636716800 (fun _ => 3) (fun _ => 0) (fun _ => 4096),
         example_env 139888628324096 (fun _ => 4) (fun _ => 0) (fun _ => 4096)] = .ok p
      ∧ p.bytes = 24576
      ∧ p.workers.length = 2
      ∧ ∀ r ∈ p.workers, payload_calls r.trace = 3 ∧ adds r.trace = [3 * 4096] :=
  worker_pool_total 4097 (example_st 3 4096) _ 2 3 4096 rfl (by norm_num) rfl rfl rfl
    (by norm_num)
    (by intro env he; simp only [List.mem_cons, List.mem_singleton, List.not_mem_nil,
          or_false] at he
        rcases he with rfl | rfl <;>
          exact example_env_returns _ _ _ _ _ (example_st_fits _ _ (by norm_num)).1
            (example_st_fits _ _ (by norm_num)).2)
    (by intro env he i _; simp only [List.mem_cons, List.mem_singleton, List.not_mem_nil,
          or_false] at he
        rcases he with rfl | rfl <;> simp [example_env])
    (by norm_num [SIZE_MOD])

/-- C7 (as stated, at 2 workers, 3 writes of 4096 bytes, the only failing `open`
at worker 0, iteration 1): the counter after join is 16384, the full total of
the other worker plus the 4096 bytes worker 0 accumulated before it stopped,
not `(2 - 1) * 3 * 4096 = 12288`. -/
theorem one_failed_open_counterexample :
    (∀ w (hw : w < example_envs_one_failure.length), ∀ i, i < 3 →
        ((example_envs_one_failure.get ⟨w, hw⟩).open_ret i < 0 ↔ (w = 0 ∧ i = 1)))
      ∧ (worker_pool 4097 (example_st 3 4096) example_envs_one_failure).toOption.map
          (fun p => p.bytes) = some 16384
      ∧ (16384 : Nat) ≠ (2 - 1) * 3 * 4096 := by
  refine ⟨?_, by decide, by decide⟩
  intro w hw i hi
  simp only [example_envs_one_failure, List.length_cons, List.length_nil] at hw
  interval_cases w <;> interval_cases i <;> simp [example_envs_one_failure, example_env]

/-- C7, amended: when exactly one `open` fails, at iteration `k` of worker `w0`,
that worker stops after `k` files, every other worker completes all `n`
iterations, and the counter after join is `(t - 1) * n * b + k * b`: the other
workers' full totals plus the partial total of the worker that stopped.  Every
worker's run is one that can end (`env.returns st`): the paths it formats, the
one of the failing `open` included, fit `fn[PATH_MAX]`. -/
theorem worker_pool_one_failed_open (fuel : Nat) (st : savethrd) (envs : List ThreadEnv)
    (t n b w0 k : Nat) (ht : envs.length = t)
    (hn : st.write_count = (n : Int)) (hb : st.bufsize = b) (h0 : st.bytes = 0)
    (hfuel : b < fuel) (hret : ∀ env ∈ envs, env.returns st)
    (hw0 : w0 < t) (hk : k < n)
    (honly : ∀ w (hw : w < envs.length), ∀ i, i < n →
      ((envs.get ⟨w, hw⟩).open_ret i < 0 ↔ (w = w0 ∧ i = k)))
    (hfit : t * n * b < SIZE_MOD) :
    ∃ p, worker_pool fuel st envs = .ok p ∧ p.workers.length = t
      ∧ p.bytes = (t - 1) * n * b + k * b
      ∧ (∀ w (hw : w < p.workers.length), w = w0 →
          (p.workers.get ⟨w, hw⟩).files.length = k
          ∧ opens (p.workers.get ⟨w, hw⟩).trace = List.range (k + 1)
          ∧ adds (p.workers.get ⟨w, hw⟩).trace = [k * b])
      ∧ (∀ w (hw : w < p.workers.length), w ≠ w0 →
          (p.workers.get ⟨w, hw⟩).files.length = n
          ∧ opens (p.workers.get ⟨w, hw⟩).trace = List.range n
          ∧ adds (p.workers.get ⟨w, hw⟩).trace = [n * b]) := by
  subst ht
  have hn' : st.write_count.toNat = n := by rw [hn]; exact Int.toNat_natCast n
  obtain ⟨p, hp, hlen, hw, hbytes⟩ := worker_pool_one_short fuel st envs n b w0 k
    hn' hb h0 hfuel hret (le_of_lt hk)
    (fun w hw hne i hi => by
      have := (honly w hw i hi).not.2 (fun h => hne h.1)
      omega)
    (fun hw => ⟨fun j hj => by
        have := (honly w0 hw j (by omega)).not.2 (fun h => by omega)
        omega,
      fun _ => (honly w0 hw k hk).2 ⟨rfl, rfl⟩⟩)
    (by rw [← Nat.mul_assoc]; exact hfit)
  rw [if_pos hw0] at hbytes
  refine ⟨p, hp, hlen, by rw [hbytes, Nat.mul_assoc], ?_, ?_⟩
  · intro w hw' hww
    obtain ⟨-, f2, f3, f4, -⟩ := hw w hw'
    rw [if_pos hww] at f2 f3 f4
    rw [if_pos hk] at f3
    exact ⟨f2, f3, f4⟩
  · intro w hw' hww
    obtain ⟨-, f2, f3, f4, -⟩ := hw w hw'
    rw [if_neg hww] at f2 f3 f4
    rw [if_neg (lt_irrefl _)] at f3
    exact ⟨f2, f3, f4⟩

/-- C2 (the code at one worker, one write of 4096 bytes, buffered path): when
the payload `write` fails (returns -1) nothing is transferred, and when it is
short (returns 100) only 100 bytes are, yet the counter after join is 4096 both
times: `bytes += st->bufsize` does not look at what `write` returned. -/
theorem worker_pool_counts_failed_write :
    (worker_pool 4097 (example_st 1 4096)
        [example_env 139888636716800 (fun _ => 3) (fun _ => 0) (fun _ => -1)]).toOption.map
        (fun p => (p.bytes, p.workers.map (fun r => payload_written r.trace)))
        = some (4096, [0])
      ∧ (worker_pool 4097 (example_st 1 4096)
        [example_env 139888636716800 (fun _ => 3) (fun _ => 0) (fun _ => 100)]).toOption.map
        (fun p => (p.bytes, p.workers.map (fun r => payload_written r.trace)))
        = some (4096, [100]) := by
  refine ⟨by decide, by decide⟩

theorem save_thread_file (fuel : Nat) (st : savethrd) (env : ThreadEnv) (i : Nat)
    (hret : env.returns st) (hfuel : st.bufsize < fuel)
    (hi : i < st.write_count.toNat) (hok : ∀ j, j ≤ i → 0 ≤ env.open_ret j) :
    ∃ r, save_thread fuel st env = .ok r ∧ ∃ hi' : i < r.files.length, ∃ tj tj' evs,
      save_iter fuel st env tj i = .ok ((r.files.get ⟨i, hi'⟩).2, tj', evs)
      ∧ (r.files.get ⟨i, hi'⟩).1 = sprintf_fn st.output_dir (tid_of env.pthread_self) i := by
  obtain ⟨r, hr⟩ := save_thread_returns fuel st env hret hfuel
  obtain ⟨r0, hr0, -, hf, -⟩ := save_thread_ok fuel st env r hr
  obtain ⟨-, -, -, h4, -, -, -, -, h9⟩ :=
    save_loop_ok fuel st env _ 0 _ 0 r0 (by norm_num [SIZE_MOD]) hr0
  have hlt : i < r0.files.length := by
    by_contra hge
    have a := h4 (by omega)
    have b := hok r0.files.length (by omega)
    rw [Nat.zero_add] at a
    omega
  obtain ⟨tj, tj', evs, hs, hn, -⟩ := h9 i hlt
  rw [Nat.zero_add] at hs hn
  obtain ⟨rb, rf, rt⟩ := r
  simp only [] at hf
  subst hf
  exact ⟨_, hr, hlt, tj, tj', evs, hs, hn⟩

/-- C4: in the buffered path, an iteration whose `open` and `fallocate` succeed
and whose `write` transfers all `bufsize` bytes closes a file that holds exactly
the `bufsize` bytes of the source buffer, and nothing more. -/
theorem save_thread_buffered_file (fuel : Nat) (st : savethrd) (env : ThreadEnv) (i : Nat)
    (hret : env.returns st) (hfuel : st.bufsize < fuel)
    (hd : st.no_direct_dma ≠ 0) (hbuf : st.bufsize ≤ st.buf.length)
    (hi : i < st.write_count.toNat) (hok : ∀ j, j ≤ i → 0 ≤ env.open_ret j)
    (hfa : env.fallocate_ret i = 0) (hw : env.write_ret i = (st.bufsize : Int)) :
    ∃ r, save_thread fuel st env = .ok r ∧ ∃ hi' : i < r.files.length,
      (r.files.get ⟨i, hi'⟩).2.data = st.buf.take st.bufsize
      ∧ (r.files.get ⟨i, hi'⟩).2.data.length = st.bufsize
      ∧ (r.files.get ⟨i, hi'⟩).1 = sprintf_fn st.output_dir (tid_of env.pthread_self) i := by
  obtain ⟨r, hr, hi', tj, tj', evs, hs, hname⟩ := save_thread_file fuel st env i hret hfuel hi hok
  have hf := save_iter_buffered fuel st env tj i _ tj' evs hs hd hfa hw hbuf
  refine ⟨r, hr, hi', ?_, ?_, hname⟩
  · rw [hf]
  · rw [hf]; simp [hbuf]

theorem save_thread_buffered_file_witness :
    ∃ r, save_thread 4097 (example_st 3 4096)
        (example_env 139888636716800 (fun _ => 3) (fun _ => 0) (fun _ => 4096)) = .ok r
      ∧ ∃ hi' : 2 < r.files.length,
        (r.files.get ⟨2, hi'⟩).2.data = (example_st 3 4096).buf.take (example_st 3 4096).bufsize
        ∧ (r.files.get ⟨2, hi'⟩).2.data.length = (example_st 3 4096).bufsize
        ∧ (r.files.get ⟨2, hi'⟩).1 = sprintf_fn (example_st 3 4096).output_dir
            (tid_of (example_env 139888636716800 (fun _ => 3) (fun _ => 0)
              (fun _ => 4096)).pthread_self) 2 :=
  save_thread_buffered_file 4097 (example_st 3 4096) _ 2 (example_env_returns _ _ _ _ _ (example_st_fits _ _ (by norm_num)).1
      (example_st_fits _ _ (by norm_num)).2)
    (by simp [example_st]) (by simp [example_st]) (by simp [example_st])
    (by simp [example_st]) (by intro j _; simp [example_env]) rfl rfl

/-- C3 (the code at one write of 4096 bytes, buffered path, `fallocate` failing
and every `write` transferring in full): `write_zeros` leaves the file offset at
4096, the payload `write` lands behind the zeros, and the file is 8192 bytes
long when it is closed, twice `bufsize`; its first 4096 bytes are still zeros. -/
theorem save_thread_fallback_file :
    ∃ r, save_thread 4097 (example_st 1 4096)
        (example_env 139888636716800 (fun _ => 3) (fun _ => -1) (fun _ => 4096)) = .ok r
      ∧ ∃ hi' : 0 < r.files.length,
        (r.files.get ⟨0, hi'⟩).2.data
          = List.replicate 4096 0 ++ (example_st 1 4096).buf.take 4096
        ∧ (r.files.get ⟨0, hi'⟩).2.data.length = 8192
        ∧ (8192 : Nat) ≠ (example_st 1 4096).bufsize := by
  obtain ⟨r, hr, hi', tj, tj', evs, hs, -⟩ := save_thread_file 4097 (example_st 1 4096)
    (example_env 139888636716800 (fun _ => 3) (fun _ => -1) (fun _ => 4096)) 0
    (example_env_returns _ _ _ _ _ (example_st_fits _ _ (by norm_num)).1
      (example_st_fits _ _ (by norm_num)).2) (by simp [example_st]) (by simp [example_st])
    (by intro j _; simp [example_env])
  have hf := save_iter_fallback 4097 (example_st 1 4096) _ tj 0 _ tj' evs hs
    (by simp [example_st]) (by simp [example_env])
    (by intro c req hreq; simp only [example_env]; omega) rfl (by simp [example_st])
    (by simp [example_st, SIZE_MOD]) (by simp [example_st])
  refine ⟨r, hr, hi', ?_, ?_, by simp [example_st]⟩
  · rw [hf]; rfl
  · rw [hf]
    simp only [List.length_append, List.length_replicate, List.length_take, example_st,
      List.length_map, List.length_range]
    rfl

/-! ## Resources of `main` -/

theorem open_mmap_buf_trace (cfg : config) (env : MainEnv) :
    (∀ evs, open_mmap_buf cfg env = (none, evs) →
      closed evs = opened evs ∧ unmapped evs = [] ∧ mapped evs = []
        ∧ (opened evs).length ≤ 1)
    ∧ (∀ mbuf evs, open_mmap_buf cfg env = (some mbuf, evs) →
      closed evs = [] ∧ opened evs = [mbuf.fd] ∧ unmapped evs = []
        ∧ mapped evs = [(mbuf.buf, mbuf.len)]) := by
  unfold open_mmap_buf
  by_cases hm : env.malloc_ok = false
  · rw [if_pos hm]
    refine ⟨?_, ?_⟩
    · intro evs h
      cases h
      simp [closed, opened, unmapped, mapped]
    · intro mbuf evs h
      cases h
  · rw [if_neg hm]
    simp only []
    by_cases ho : env.open_ret < 0
    · rw [if_pos ho]
      refine ⟨?_, ?_⟩
      · intro evs h
        cases h
        have : ¬ (0 ≤ env.open_ret) := by omega
        simp [closed, opened, unmapped, mapped, this]
      · intro mbuf evs h
        cases h
    · rw [if_neg ho]
      have hge : 0 ≤ env.open_ret := by omega
      cases hmm : env.mmap_ret with
      | none =>
        refine ⟨?_, ?_⟩
        · intro evs h
          cases h
          simp [closed, opened, unmapped, mapped, hge]
        · intro mbuf evs h
          cases h
      | some addr =>
        refine ⟨?_, ?_⟩
        · intro evs h
          cases h
        · intro mbuf evs h
          cases h
          simp [closed, opened, unmapped, mapped, hge]

theorem main_trace_append (a b : List MainEvent) :
    closed (a ++ b) = closed a ++ closed b ∧ opened (a ++ b) = opened a ++ opened b
      ∧ unmapped (a ++ b) = unmapped a ++ unmapped b
      ∧ mapped (a ++ b) = mapped a ++ mapped b := by
  simp [closed, opened, unmapped, mapped, List.filterMap_append]

/-- C9: whenever `main` returns, the descriptors it closed are exactly the
descriptors it had opened for the source mapping and the mappings it removed
are exactly the mappings it had established, each at most one: what was
acquired is released once, and nothing else is released. -/
theorem main_releases_once (fuel : Nat) (cfg : config) (env : MainEnv) (r : MainResult)
    (h : main fuel cfg env = .ok r) :
    closed r.trace = opened r.trace ∧ unmapped r.trace = mapped r.trace
      ∧ (opened r.trace).length ≤ 1 ∧ (mapped r.trace).length ≤ 1 := by
  unfold main at h
  by_cases hv : cfg.show_version ≠ 0
  · rw [if_pos hv] at h
    cases h
    simp [closed, opened, unmapped, mapped]
  · rw [if_neg hv] at h
    unfold delete_output_dir_files at h
    by_cases hov : MAX_INPUT < (sprintf_cmd cfg.output_dir).utf8ByteSize + 1
    · rw [if_pos hov] at h
      cases h
    · rw [if_neg hov] at h
      simp only [] at h
      obtain ⟨hnone, hsome⟩ := open_mmap_buf_trace
        { cfg with bufsize := main_bufsize cfg.buf_size_mb } env
      have hpre : closed [MainEvent.umask, MainEvent.system (sprintf_cmd cfg.output_dir)] = []
          ∧ opened [MainEvent.umask, MainEvent.system (sprintf_cmd cfg.output_dir)] = []
          ∧ unmapped [MainEvent.umask, MainEvent.system (sprintf_cmd cfg.output_dir)] = []
          ∧ mapped [MainEvent.umask, MainEvent.system (sprintf_cmd cfg.output_dir)] = [] := by
        simp [closed, opened, unmapped, mapped]
      obtain ⟨p1, p2, p3, p4⟩ := hpre
      cases hopen : open_mmap_buf { cfg with bufsize := main_bufsize cfg.buf_size_mb } env with
      | mk mb evs =>
        rw [hopen] at h
        cases mb with
        | none =>
          obtain ⟨c1, c2, c3, c4⟩ := hnone evs hopen
          simp only [] at h
          cases h
          simp only [main_trace_append, c1, c2, c3, p1, p2, p3, p4]
          simp [closed, opened, unmapped, mapped]
          exact c4
        | some mbuf =>
          obtain ⟨c1, c2, c3, c4⟩ := hsome mbuf evs hopen
          simp only [] at h
          by_cases hws : env.worker_start_ret ≠ 0
          · rw [if_pos hws] at h
            cases h
            simp only [main_trace_append, c1, c2, c3, c4, p1, p2, p3, p4]
            simp [closed, opened, unmapped, mapped, close_mmap_buf]
          · rw [if_neg hws] at h
            split at h
            · cases h
            · cases h
              simp only [main_trace_append, c1, c2, c3, c4, p1, p2, p3, p4]
              simp [closed, opened, unmapped, mapped, close_mmap_buf]

theorem main_releases_once_witness :
    ∃ r, main 1048577 example_cfg example_main_env = .ok r
      ∧ closed r.trace = opened r.trace ∧ unmapped r.trace = mapped r.trace
      ∧ (opened r.trace).length ≤ 1 ∧ (mapped r.trace).length ≤ 1 := by
  obtain ⟨r, hr⟩ : ∃ r, main 1048577 example_cfg example_main_env = .ok r := ⟨_, rfl⟩
  exact ⟨r, hr, main_releases_once 1048577 example_cfg example_main_env r hr⟩

/-- When the command of `delete_output_dir_files` fits `cmd` and the source
mapping cannot be set up or the pool cannot be started, `main` returns -1
without running a worker. -/
theorem main_setup_failure (fuel : Nat) (cfg : config) (env : MainEnv)
    (hv : cfg.show_version = 0)
    (hcmd : (sprintf_cmd cfg.output_dir).utf8ByteSize + 1 ≤ MAX_INPUT)
    (h : env.malloc_ok = false ∨ env.open_ret < 0 ∨ env.mmap_ret = none
      ∨ env.worker_start_ret ≠ 0) :
    ∃ r, main fuel cfg env = .ok r ∧ r.ret = -1 ∧ r.pool = none := by
  unfold main
  rw [if_neg (by simp [hv])]
  unfold delete_output_dir_files
  rw [if_neg (by omega)]
  simp only []
  cases hopen : open_mmap_buf { cfg with bufsize := main_bufsize cfg.buf_size_mb } env with
  | mk mb evs =>
    cases mb with
    | none => exact ⟨_, rfl, rfl, rfl⟩
    | some mbuf =>
      simp only []
      by_cases hws : env.worker_start_ret ≠ 0
      · rw [if_pos hws]
        exact ⟨_, rfl, rfl, rfl⟩
      · exfalso
        unfold open_mmap_buf at hopen
        rcases h with h | h | h | h
        · rw [if_pos h] at hopen; cases hopen
        · by_cases hm : env.malloc_ok = false
          · rw [if_pos hm] at hopen; cases hopen
          · rw [if_neg hm] at hopen
            simp only [] at hopen
            rw [if_pos h] at hopen; cases hopen
        · by_cases hm : env.malloc_ok = false
          · rw [if_pos hm] at hopen; cases hopen
          · rw [if_neg hm] at hopen
            simp only [] at hopen
            by_cases ho : env.open_ret < 0
            · rw [if_pos ho] at hopen; cases hopen
            · rw [if_neg ho, h] at hopen; cases hopen
        · exact hws h

/-- When the workers ran, the value `main` passes to `report_transfer_rate` is
the counter the pool left, from a pool started on the `savethrd` that `main`
filled. -/
theorem main_reports_pool_bytes (fuel : Nat) (cfg : config) (env : MainEnv) (r : MainResult)
    (p : PoolResult) (h : main fuel cfg env = .ok r) (hp : r.pool = some p) :
    MainEvent.report_transfer_rate p.bytes ∈ r.trace
      ∧ worker_pool fuel (main_st { cfg with bufsize := main_bufsize cfg.buf_size_mb } env)
          ((List.range cfg.threads).map env.thread) = .ok p := by
  unfold main at h
  by_cases hv : cfg.show_version ≠ 0
  · rw [if_pos hv] at h
    cases h; cases hp
  · rw [if_neg hv] at h
    unfold delete_output_dir_files at h
    by_cases hov : MAX_INPUT < (sprintf_cmd cfg.output_dir).utf8ByteSize + 1
    · rw [if_pos hov] at h
      cases h
    · rw [if_neg hov] at h
      simp only [] at h
      cases hopen : open_mmap_buf { cfg with bufsize := main_bufsize cfg.buf_size_mb } env with
      | mk mb evs =>
        rw [hopen] at h
        cases mb with
        | none =>
          simp only [] at h
          cases h; cases hp
        | some mbuf =>
          simp only [] at h
          by_cases hws : env.worker_start_ret ≠ 0
          · rw [if_pos hws] at h
            cases h; cases hp
          · rw [if_neg hws] at h
            split at h
            · cases h
            · rename_i p' hp'
              cases h
              cases hp
              exact ⟨by simp, hp'⟩

/-- The assignment `st.write_count = cfg.write_count` keeps every count up to
`INT_MAX`. -/
theorem unsigned_to_int_small (u : Nat) (h : u ≤ 2147483647) :
    unsigned_to_int u = (u : Int) := by
  unfold unsigned_to_int UINT_MOD
  rw [if_pos (by omega)]
  congr 1
  omega

/-- Through `main`: for a write count up to `INT_MAX`, when the setup succeeds
and every `open` of every worker succeeds, `main` returns 0 and the byte count
it reports is `threads * write_count * bufsize`, with `bufsize` the `unsigned`
product `buf_size_mb * 1024 * 1024`. -/
theorem main_total (fuel : Nat) (cfg : config) (env : MainEnv) (addr : Nat)
    (hv : cfg.show_version = 0)
    (hcmd : (sprintf_cmd cfg.output_dir).utf8ByteSize + 1 ≤ MAX_INPUT)
    (hm : env.malloc_ok = true) (ho : 0 ≤ env.open_ret) (hmm : env.mmap_ret = some addr)
    (hws : env.worker_start_ret = 0)
    (ht : 1 ≤ cfg.threads) (hn : cfg.write_count ≤ 2147483647)
    (hfuel : main_bufsize cfg.buf_size_mb < fuel)
    (hret : ∀ k, k < cfg.threads → (env.thread k).returns
      (main_st { cfg with bufsize := main_bufsize cfg.buf_size_mb } env))
    (hopen : ∀ k, k < cfg.threads → ∀ i, i < cfg.write_count → 0 ≤ (env.thread k).open_ret i)
    (hfit : cfg.threads * cfg.write_count * main_bufsize cfg.buf_size_mb < SIZE_MOD) :
    ∃ r p, main fuel cfg env = .ok r ∧ r.ret = 0 ∧ r.pool = some p
      ∧ p.bytes = cfg.threads * cfg.write_count * main_bufsize cfg.buf_size_mb
      ∧ reported r.trace = [p.bytes] := by
  obtain ⟨p, hp, hbytes, -, -⟩ := worker_pool_total fuel
    (main_st { cfg with bufsize := main_bufsize cfg.buf_size_mb } env)
    ((List.range cfg.threads).map env.thread) cfg.threads cfg.write_count
    (main_bufsize cfg.buf_size_mb) (by simp) ht (unsigned_to_int_small _ hn) rfl rfl hfuel
    (by intro e he
        obtain ⟨k, hk, rfl⟩ := List.mem_map.1 he
        exact hret k (List.mem_range.1 hk))
    (by intro e he i hi
        obtain ⟨k, hk, rfl⟩ := List.mem_map.1 he
        exact hopen k (List.mem_range.1 hk) i hi)
    hfit
  have hopenbuf : open_mmap_buf { cfg with bufsize := main_bufsize cfg.buf_size_mb } env
      = (some { fd := env.open_ret, buf := addr, len := main_bufsize cfg.buf_size_mb },
          [.malloc_mbuf true, .open_src env.open_ret,
            .mmap_src env.open_ret (main_bufsize cfg.buf_size_mb) cfg.mmap_offset (some addr)]) := by
    unfold open_mmap_buf
    rw [if_neg (by simp [hm])]
    simp only []
    rw [if_neg (by omega), hmm]
  have key : ∃ r, main fuel cfg env = .ok r ∧ r.ret = 0 ∧ r.pool = some p
      ∧ reported r.trace = [p.bytes] := by
    unfold main
    rw [if_neg (by simp [hv])]
    unfold delete_output_dir_files
    rw [if_neg (by omega)]
    simp only []
    rw [hopenbuf]
    simp only []
    rw [if_neg (by simp [hws]), hp]
    exact ⟨_, rfl, rfl, rfl, by simp [reported, close_mmap_buf]⟩
  obtain ⟨r, h1, h2, h3, h4⟩ := key
  exact ⟨r, p, h1, h2, h3, hbytes, h4⟩

/-- C1 (the code at `-D -c 2147483648 -t 1 -b 1`, every call succeeding): the
assignment `st.write_count = cfg.write_count` converts the `unsigned` count to
the `int` field, 2147483648 becomes -2147483648, the loop of the worker makes no
iteration, and `main` returns 0 and reports 0 bytes, not
`1 * 2147483648 * 1048576`. -/
theorem main_large_count_reports_zero :
    unsigned_to_int example_cfg_large_count.write_count = -2147483648
      ∧ (main 1048577 example_cfg_large_count example_main_env).toOption.map
          (fun r => (r.ret, reported r.trace,
            r.pool.map (fun p => (p.bytes, p.workers.map (fun w => opens w.trace)))))
          = some (0, [0], some (0, [[]]))
      ∧ (0 : Nat) ≠ example_cfg_large_count.threads * example_cfg_large_count.write_count
          * main_bufsize example_cfg_large_count.buf_size_mb := by
  refine ⟨by decide, by decide, by decide⟩

theorem worker_pool_one_failed_open_witness :
    ∃ p, worker_pool 4097 (example_st 3 4096) example_envs_one_failure = .ok p
      ∧ p.workers.length = 2
      ∧ p.bytes = (2 - 1) * 3 * 4096 + 1 * 4096
      ∧ (∀ w (hw : w < p.workers.length), w = 0 →
          (p.workers.get ⟨w, hw⟩).files.length = 1
          ∧ opens (p.workers.get ⟨w, hw⟩).trace = List.range (1 + 1)
          ∧ adds (p.workers.get ⟨w, hw⟩).trace = [1 * 4096])
      ∧ (∀ w (hw : w < p.workers.length), w ≠ 0 →
          (p.workers.get ⟨w, hw⟩).files.length = 3
          ∧ opens (p.workers.get ⟨w, hw⟩).trace = List.range 3
          ∧ adds (p.workers.get ⟨w, hw⟩).trace = [3 * 4096]) :=
  worker_pool_one_failed_open 4097 (example_st 3 4096) example_envs_one_failure 2 3 4096 0 1
    rfl rfl rfl rfl (by norm_num)
    (by intro env he
        simp only [example_envs_one_failure, List.mem_cons, List.mem_singleton,
          List.not_mem_nil, or_false] at he
        rcases he with rfl | rfl <;>
          exact example_env_returns _ _ _ _ _ (example_st_fits _ _ (by norm_num)).1
            (example_st_fits _ _ (by norm_num)).2)
    (by norm_num) (by norm_num)
    (by intro w hw i hi
        simp only [example_envs_one_failure, List.length_cons, List.length_nil] at hw
        interval_cases w <;> interval_cases i <;> simp [example_envs_one_failure, example_env])
    (by norm_num [SIZE_MOD])

/-! ## The order of the atomic additions -/

theorem worker_pool_from_bytes (fuel : Nat) (st : savethrd) :
    ∀ envs bytes p, worker_pool_from fuel st bytes envs = .ok p →
      (∀ env ∈ envs, ∃ r, save_thread fuel st env = .ok r)
      ∧ p.workers.map (fun r => r.bytes)
          = envs.map (fun env => match save_thread fuel st env with
            | .ok r => r.bytes
            | .error _ => 0) := by
  intro envs
  induction envs with
  | nil =>
    intro bytes p h
    rw [worker_pool_from] at h
    cases h
    exact ⟨by simp, rfl⟩
  | cons env envs ih =>
    intro bytes p h
    rw [worker_pool_from] at h
    split at h
    · cases h
    · rename_i r hr
      split at h
      · cases h
      · rename_i p' hp'
        cases h
        obtain ⟨h1, h2⟩ := ih _ p' hp'
        refine ⟨?_, ?_⟩
        · intro e he
          rcases List.mem_cons.1 he with rfl | he
          · exact ⟨r, hr⟩
          · exact h1 e he
        · simp only [List.map_cons, h2, hr]

/-- The counter the pool leaves does not depend on the order in which the
workers perform their atomic additions. -/
theorem worker_pool_from_perm (fuel : Nat) (st : savethrd) (envs envs' : List ThreadEnv)
    (bytes : Nat) (p : PoolResult) (hperm : envs.Perm envs') (hb : bytes < SIZE_MOD)
    (h : worker_pool_from fuel st bytes envs = .ok p) :
    ∃ p', worker_pool_from fuel st bytes envs' = .ok p' ∧ p'.bytes = p.bytes := by
  obtain ⟨hall, hmap⟩ := worker_pool_from_bytes fuel st envs bytes p h
  obtain ⟨p', hp'⟩ := worker_pool_from_returns fuel st envs' bytes
    (fun e he => hall e (hperm.symm.subset he))
  obtain ⟨-, hmap'⟩ := worker_pool_from_bytes fuel st envs' bytes p' hp'
  refine ⟨p', hp', ?_⟩
  rw [(worker_pool_from_ok fuel st envs' bytes p' hb hp').2.2,
    (worker_pool_from_ok fuel st envs bytes p hb h).2.2, hmap, hmap']
  congr 2
  exact ((hperm.map _).sum_eq).symm


/-! ## Overruns of `fn` and `cmd` -/

/-- A worker with at least one iteration to make and a directory of `PATH_MAX`
bytes or more overruns `fn` in its first `sprintf`. -/
theorem save_thread_long_dir (fuel : Nat) (st : savethrd) (env : ThreadEnv)
    (hn : 0 < st.write_count) (hdir : PATH_MAX ≤ st.output_dir.utf8ByteSize) :
    save_thread fuel st env = .error Stop.overrun := by
  obtain ⟨m, hm⟩ : ∃ m, st.write_count.toNat = m + 1 := ⟨st.write_count.toNat - 1, by omega⟩
  have hlong := sprintf_fn_size_ge st.output_dir (tid_of env.pthread_self) 0
  unfold save_thread
  simp only []
  rw [hm, save_loop, if_pos (by omega)]

/-- With a directory of 242 bytes or more `main` overruns `cmd` in
`delete_output_dir_files`, before it opens the source mapping. -/
theorem main_long_dir (fuel : Nat) (cfg : config) (env : MainEnv)
    (hv : cfg.show_version = 0) (hdir : 242 ≤ cfg.output_dir.utf8ByteSize) :
    main fuel cfg env = .error Stop.overrun := by
  have hsize := sprintf_cmd_size cfg.output_dir
  unfold main
  rw [if_neg (by simp [hv])]
  unfold delete_output_dir_files
  rw [if_pos (by unfold MAX_INPUT; omega)]

/-! ## Supporting facts on the counter and the write count -/

/-- What a worker adds is `bufsize` for each payload write it issued, reduced
modulo `2 ^ 64`, whatever the writes returned. -/
theorem save_thread_counts_iterations (fuel : Nat) (st : savethrd) (env : ThreadEnv)
    (r : LoopResult) (h : save_thread fuel st env = .ok r) :
    r.bytes = (payload_calls r.trace * st.bufsize) % SIZE_MOD ∧ adds r.trace = [r.bytes] := by
  obtain ⟨r0, hr0, hb, -, ht⟩ := save_thread_ok fuel st env r h
  obtain ⟨-, h2, -, -, h5, h6, -, -, -⟩ :=
    save_loop_ok fuel st env _ 0 _ 0 r0 (by norm_num [SIZE_MOD]) hr0
  rw [ht, List.cons_append, (thread_trace_facts _ _ _).2.1, (thread_trace_facts _ _ _).2.2,
    h5, h6, hb, h2, Nat.zero_add]
  exact ⟨rfl, rfl⟩

end Nvme2MapWrite
